import Mathlib

/-! # Matrix.hpp: a fixed-size dense matrix template

Shallow embedding of `matrix::Matrix<Type, M, N>` (src/matrix/Matrix.hpp).

* The element type `Type` is an arbitrary linearly ordered field `α`: exact
  arithmetic standing for a floating element type.  The literal in `Type(1e-4)`
  is taken exactly.
* `limited` declares its working variable as `float r` whatever `Type` is.  The
  conversion of a `Type` value to `float` is the explicit argument `toFloat` of
  `Matrix.limited`: `toFloat x` is the `float` nearest to `x`, read back in
  `Type`.  It is the identity for `Type = float` and a rounding for a wider
  `Type`; `roundToFloat` is that rounding for `Type = double` on the rationals.
* The storage `Type _data[M][N]` is the row-major flat list of its `M * N`
  cells, so that `_data[i][j]` is cell `i * N + j`; this is what `memcpy`
  and `memset` see.
* A `for (size_t i = 0; i < n; i++)` loop is `forLoop n body`, running the body
  for `i = 0, 1, ..., n - 1` in that order on the mutable state.
* Indexing outside the storage is undefined behaviour in the source.  Here a
  read outside the list yields `0` and a write outside it is dropped; the
  constructor from a raw pointer, which is the one place where a caller-chosen
  range of cells is read in bulk, returns `none` when it would leave the buffer.
-/

namespace matrix

/-- The loop `for (size_t i = 0; i < n; i++) { body }` acting on a state. -/
def forLoop {σ : Type} (n : Nat) (body : Nat → σ → σ) (s : σ) : σ :=
  match n with
  | 0 => s
  | k + 1 => body k (forLoop k body s)

/-- The loop `for (size_t i = 0; i < n; i++) { body }` whose body may `return`:
the value returned by the first iteration that returns, `none` when the loop
runs to its end. -/
def forReturn {ρ : Type} (n : Nat) (body : Nat → Option ρ) : Option ρ :=
  match n with
  | 0 => none
  | k + 1 =>
    match forReturn k body with
    | some r => some r
    | none => body k

/-- The class `Matrix<Type, M, N>`: its only member is `Type _data[M][N]`,
kept as the row-major list of the `M * N` cells. -/
structure Matrix (α : Type) (M N : Nat) where
  /-- The cells of `_data[M][N]`, row after row. -/
  _data : List α
  /-- The storage has exactly `M * N` cells. -/
  size_eq : _data.length = M * N
deriving DecidableEq

variable {α : Type} [LinearOrderedField α] {M N P Q R : Nat}

namespace Matrix

/-- The default constructor `Matrix()`: `memset(_data, 0, sizeof(_data))`. -/
def new : Matrix α M N :=
  ⟨List.replicate (M * N) 0, by simp⟩

/-- The constructor `Matrix(const Type *data_)`:
`memcpy(_data, data_, sizeof(_data))`, where the pointer `data_` is the cell
`off` of the buffer `buf`.  The copy reads the `M * N` consecutive cells
`off, off + 1, ...`; it is defined when all of them are inside the buffer. -/
def ofPtr (buf : List α) (off : Nat) : Option (Matrix α M N) :=
  if ∀ t, t < M * N → off + t < buf.length then
    some ⟨(List.range (M * N)).map (fun t => buf.getD (off + t) 0), by simp⟩
  else
    none

/-- The read accessor `Type operator()(size_t i, size_t j) const`:
`_data[i][j]`. -/
def get (self : Matrix α M N) (i j : Nat) : α :=
  self._data.getD (i * N + j) 0

/-- An assignment through `Type &operator()(size_t i, size_t j)`:
`self(i, j) = v`. -/
def put (self : Matrix α M N) (i j : Nat) (v : α) : Matrix α M N :=
  ⟨self._data.set (i * N + j) v, by simp [self.size_eq]⟩

/-- The method `setZero()`: `memset(_data, 0, sizeof(_data))`. -/
def setZero (_self : Matrix α M N) : Matrix α M N :=
  ⟨List.replicate (M * N) 0, by simp⟩

end Matrix

/-- The assignment `operator=(const Matrix &other)`:
`memcpy(_data, other._data, sizeof(_data))`. -/
def Matrix.assign (_self other : Matrix α M N) : Matrix α M N :=
  ⟨other._data, other.size_eq⟩

/-- The method `setAll(Type val)`. -/
def Matrix.setAll (self : Matrix α M N) (val : α) : Matrix α M N :=
  forLoop M (fun i self =>
    forLoop N (fun j self => self.put i j val) self) self

/-- The method `setOne()`: `setAll(1)`. -/
def Matrix.setOne (self : Matrix α M N) : Matrix α M N :=
  self.setAll 1

/-- The method `setIdentity()`: `setZero()`, then the loop
`for (size_t i = 0; i < M && i < N; i++) self(i, i) = 1`, whose condition holds
exactly for `i < min M N`. -/
def Matrix.setIdentity (self : Matrix α M N) : Matrix α M N :=
  forLoop (min M N) (fun i self => self.put i i 1) self.setZero

/-- The static method `Identity()`: a default-constructed `res`, then
`res.setIdentity()`. -/
def Matrix.Identity : Matrix α M N :=
  (Matrix.new : Matrix α M N).setIdentity

/-- The matrix product `operator*(const Matrix<Type, N, P> &other)`. -/
def Matrix.mul (self : Matrix α M N) (other : Matrix α N P) : Matrix α M P :=
  let res : Matrix α M P := (Matrix.new : Matrix α M P).setZero
  forLoop M (fun i res =>
    forLoop P (fun k res =>
      forLoop N (fun j res =>
        res.put i k (res.get i k + self.get i j * other.get j k)) res) res) res

/-- The element-wise product `emult`. -/
def Matrix.emult (self other : Matrix α M N) : Matrix α M N :=
  let res : Matrix α M N := Matrix.new
  forLoop M (fun i res =>
    forLoop N (fun j res => res.put i j (self.get i j * other.get i j)) res) res

/-- The sum `operator+(const Matrix &other)`. -/
def Matrix.add (self other : Matrix α M N) : Matrix α M N :=
  let res : Matrix α M N := Matrix.new
  forLoop M (fun i res =>
    forLoop N (fun j res => res.put i j (self.get i j + other.get i j)) res) res

/-- The comparison `operator==(const Matrix &other)`, with
`eps = Type(1e-4)` and an early `return false`. -/
def Matrix.eq (self other : Matrix α M N) : Bool :=
  let eps : α := 1e-4
  match forReturn M (fun i =>
      forReturn N (fun j =>
        if |self.get i j - other.get i j| > eps then some false else none)) with
  | some r => r
  | none => true

/-- The difference `operator-(const Matrix &other)`. -/
def Matrix.sub (self other : Matrix α M N) : Matrix α M N :=
  let res : Matrix α M N := Matrix.new
  forLoop M (fun i res =>
    forLoop N (fun j res => res.put i j (self.get i j - other.get i j)) res) res

/-- The unary minus `operator-()`. -/
def Matrix.neg (self : Matrix α M N) : Matrix α M N :=
  let res : Matrix α M N := Matrix.new
  forLoop M (fun i res =>
    forLoop N (fun j res => res.put i j (-self.get i j)) res) res

/-- The compound `operator+=(const Matrix &other)`: `self = self + other`. -/
def Matrix.addAssign (self other : Matrix α M N) : Matrix α M N :=
  self.assign (self.add other)

/-- The compound `operator-=(const Matrix &other)`: `self = self - other`. -/
def Matrix.subAssign (self other : Matrix α M N) : Matrix α M N :=
  self.assign (self.sub other)

/-- The compound `operator*=(const Matrix<Type, N, P> &other)`:
`self = self * other`, which type-checks only for `P = N`. -/
def Matrix.mulAssign (self : Matrix α M N) (other : Matrix α N N) : Matrix α M N :=
  self.assign (self.mul other)

/-- The scalar product `operator*(Type scalar)`. -/
def Matrix.mulScalar (self : Matrix α M N) (scalar : α) : Matrix α M N :=
  let res : Matrix α M N := Matrix.new
  forLoop M (fun i res =>
    forLoop N (fun j res => res.put i j (self.get i j * scalar)) res) res

/-- The scalar quotient `operator/(Type scalar)`: `(*this) * (1 / scalar)`. -/
def Matrix.divScalar (self : Matrix α M N) (scalar : α) : Matrix α M N :=
  self.mulScalar (1 / scalar)

/-- The scalar sum `operator+(Type scalar)`. -/
def Matrix.addScalar (self : Matrix α M N) (scalar : α) : Matrix α M N :=
  let res : Matrix α M N := Matrix.new
  forLoop M (fun i res =>
    forLoop N (fun j res => res.put i j (self.get i j + scalar)) res) res

/-- The scalar difference `operator-(Type scalar)`:
`(*this) + (-1 * scalar)`. -/
def Matrix.subScalar (self : Matrix α M N) (scalar : α) : Matrix α M N :=
  self.addScalar (-1 * scalar)

/-- The compound `operator*=(Type scalar)`, an in-place loop. -/
def Matrix.mulAssignScalar (self : Matrix α M N) (scalar : α) : Matrix α M N :=
  forLoop M (fun i self =>
    forLoop N (fun j self => self.put i j (self.get i j * scalar)) self) self

/-- The compound `operator/=(Type scalar)`: `self = self * (1.0f / scalar)`. -/
def Matrix.divAssignScalar (self : Matrix α M N) (scalar : α) : Matrix α M N :=
  self.assign (self.mulScalar (1 / scalar))

/-- The compound `operator+=(Type scalar)`: `*this = (*this) + scalar`. -/
def Matrix.addAssignScalar (self : Matrix α M N) (scalar : α) : Matrix α M N :=
  self.assign (self.addScalar scalar)

/-- The compound `operator-=(Type scalar)`: `*this = (*this) - scalar`. -/
def Matrix.subAssignScalar (self : Matrix α M N) (scalar : α) : Matrix α M N :=
  self.assign (self.subScalar scalar)

/-- The free function `operator*(Type scalar, const Matrix &other)`:
`other * scalar`. -/
def scalarMul (scalar : α) (other : Matrix α M N) : Matrix α M N :=
  other.mulScalar scalar

/-- The method `transpose()`. -/
def Matrix.transpose (self : Matrix α M N) : Matrix α N M :=
  let res : Matrix α N M := Matrix.new
  forLoop M (fun i res =>
    forLoop N (fun j res => res.put j i (self.get i j)) res) res

/-- The alias `transposed()`. -/
def Matrix.transposed (self : Matrix α M N) : Matrix α N M :=
  self.transpose

/-- The alias `T()`. -/
def Matrix.T (self : Matrix α M N) : Matrix α N M :=
  self.transpose

/-- The method `slice<P, Q>(x0, y0)`: `Matrix<Type, P, Q> res(&(_data[x0][y0]))`,
the pointer constructor applied to the address of cell `x0 * N + y0` of the own
storage. -/
def Matrix.slice (self : Matrix α M N) (P Q : Nat) (x0 y0 : Nat) :
    Option (Matrix α P Q) :=
  Matrix.ofPtr self._data (x0 * N + y0)

/-- The method `set(const Matrix<Type, P, Q> &m, x0, y0)`. -/
def Matrix.set (self : Matrix α M N) (m : Matrix α P Q) (x0 y0 : Nat) :
    Matrix α M N :=
  forLoop P (fun i self =>
    forLoop Q (fun j self => self.put (i + x0) (j + y0) (m.get i j)) self) self

/-- The method `getRow(i)`. -/
def Matrix.getRow (self : Matrix α M N) (i : Nat) : Matrix α 1 N :=
  let res : Matrix α 1 N := Matrix.new
  forLoop N (fun c res => res.put 0 c (self.get i c)) res

/-- The method `getCol(j)`. -/
def Matrix.getCol (self : Matrix α M N) (j : Nat) : Matrix α M 1 :=
  let res : Matrix α M 1 := Matrix.new
  forLoop M (fun c res => res.put c 0 (self.get c j)) res

/-- The method `setRow(i, row)`. -/
def Matrix.setRow (self : Matrix α M N) (i : Nat) (row : Matrix α 1 N) :
    Matrix α M N :=
  forLoop N (fun j self => self.put i j (row.get 0 j)) self

/-- The method `setCol(j, col)`. -/
def Matrix.setCol (self : Matrix α M N) (j : Nat) (col : Matrix α M 1) :
    Matrix α M N :=
  forLoop M (fun i self => self.put i j (col.get i 0)) self

/-- The method `swapRows(a, b)`. -/
def Matrix.swapRows (self : Matrix α M N) (a b : Nat) : Matrix α M N :=
  if a = b then self
  else
    forLoop N (fun j self =>
      let tmp := self.get a j
      let self := self.put a j (self.get b j)
      self.put b j tmp) self

/-- The method `swapCols(a, b)`. -/
def Matrix.swapCols (self : Matrix α M N) (a b : Nat) : Matrix α M N :=
  if a = b then self
  else
    forLoop M (fun i self =>
      let tmp := self.get i a
      let self := self.put i a (self.get i b)
      self.put i b tmp) self

/-- The method `abs()`. -/
def Matrix.abs (self : Matrix α M N) : Matrix α M N :=
  let r : Matrix α M N := Matrix.new
  forLoop M (fun i r =>
    forLoop N (fun j r => r.put i j |self.get i j|) r) r

/-- The method `max()`. -/
def Matrix.max (self : Matrix α M N) : α :=
  let max_val := self.get 0 0
  forLoop M (fun i max_val =>
    forLoop N (fun j max_val =>
      let val := self.get i j
      if val > max_val then val else max_val) max_val) max_val

/-- The method `min()`. -/
def Matrix.min (self : Matrix α M N) : α :=
  let min_val := self.get 0 0
  forLoop M (fun i min_val =>
    forLoop N (fun j min_val =>
      let val := self.get i j
      if val < min_val then val else min_val) min_val) min_val

/-- The method `limited(_min, _max)`.  The source declares `float r`, so the
element and each bound pass through `toFloat` when they are stored in `r`:
`float r = (*this)(i, j)`, `r = _min(i, j)`, `r = _max(i, j)`.  The comparisons
`r < _min(i, j)` and `r > _max(i, j)` and the store `res(i, j) = r` widen `r`
back to `Type`, which is exact for a floating `Type`. -/
def Matrix.limited (toFloat : α → α) (self _min _max : Matrix α M N) : Matrix α M N :=
  let res : Matrix α M N := Matrix.new
  forLoop M (fun i res =>
    forLoop N (fun j res =>
      let r := toFloat (self.get i j)
      let r := if r < _min.get i j then toFloat (_min.get i j) else r
      let r := if r > _max.get i j then toFloat (_max.get i j) else r
      res.put i j r) res) res

/-- The free function `zeros<Type, M, N>()`. -/
def zeros : Matrix α M N :=
  (Matrix.new : Matrix α M N).setZero

/-- The free function `ones<Type, M, N>()`. -/
def ones : Matrix α M N :=
  (Matrix.new : Matrix α M N).setOne

/-- The constructor `Matrix(const Type data_[M][N])`:
`memcpy(_data, data_, sizeof(_data))` from an array of exactly `M * N` cells,
given row after row. -/
def Matrix.ofArray (data_ : List α) (h : data_.length = M * N) : Matrix α M N :=
  ⟨data_, h⟩

/-- Rounding of a rational to the nearest integer, a tie going to the even
neighbour. -/
def roundHalfEven (q : ℚ) : ℤ :=
  if q - ⌊q⌋ < 1 / 2 then ⌊q⌋
  else if q - ⌊q⌋ > 1 / 2 then ⌊q⌋ + 1
  else if ⌊q⌋ % 2 = 0 then ⌊q⌋ else ⌊q⌋ + 1

/-- The conversion of a `double` value to `float`, read back as a rational:
IEEE-754 binary32 rounding to nearest, ties to even, with a 24-bit significand
and gradual underflow below `2 ^ (-126)`.  The overflow to infinity of
magnitudes from `2 ^ 128` on is not represented. -/
def roundToFloat (x : ℚ) : ℚ :=
  if x = 0 then 0
  else
    let e := max (Int.log 2 |x|) (-126)
    (roundHalfEven (x / 2 ^ (e - 23)) : ℚ) * 2 ^ (e - 23)

/-! ## Storage lemmas -/

theorem forLoop_succ {σ : Type} (n : Nat) (body : Nat → σ → σ) (s : σ) :
    forLoop (n + 1) body s = body n (forLoop n body s) := rfl

/-- Loop invariant rule: an invariant that holds on entry and is carried by
every iteration holds when the loop ends. -/
theorem forLoop_inv {σ : Type} (Inv : Nat → σ → Prop) (n : Nat)
    (body : Nat → σ → σ) (s : σ) (h0 : Inv 0 s)
    (hstep : ∀ i, i < n → ∀ t, Inv i t → Inv (i + 1) (body i t)) :
    Inv n (forLoop n body s) := by
  induction n with
  | zero => exact h0
  | succ k ih =>
    rw [forLoop_succ]
    exact hstep k (Nat.lt_succ_self k) _
      (ih (fun i hi t ht => hstep i (Nat.lt_succ_of_lt hi) t ht))

theorem index_lt {i j : Nat} (hi : i < M) (hj : j < N) : i * N + j < M * N := by
  calc i * N + j < i * N + N := by omega
    _ = (i + 1) * N := by ring
    _ ≤ M * N := Nat.mul_le_mul_right N hi

theorem index_inj {i j i' j' : Nat} (hj : j < N) (hj' : j' < N)
    (h : i * N + j = i' * N + j') : i = i' ∧ j = j' := by
  have h1 : (i * N + j) / N = i := by
    rw [Nat.add_comm, Nat.add_mul_div_right _ _ (by omega), Nat.div_eq_of_lt hj]; simp
  have h2 : (i' * N + j') / N = i' := by
    rw [Nat.add_comm, Nat.add_mul_div_right _ _ (by omega), Nat.div_eq_of_lt hj']; simp
  have hi : i = i' := by rw [← h1, ← h2, h]
  subst hi
  exact ⟨rfl, by omega⟩

namespace Matrix

theorem get_new (i j : Nat) : (new : Matrix α M N).get i j = 0 := by
  unfold get new
  by_cases h : i * N + j < M * N
  · simp [List.getD_eq_getElem?_getD, List.getElem?_replicate, h]
  · simp [List.getD_eq_getElem?_getD, List.getElem?_replicate, h]

theorem get_setZero (A : Matrix α M N) (i j : Nat) : A.setZero.get i j = 0 :=
  get_new i j

theorem get_put (A : Matrix α M N) {i j i' j' : Nat} (hi : i < M) (hj : j < N)
    (hj' : j' < N) (v : α) :
    (A.put i j v).get i' j' = if i' = i ∧ j' = j then v else A.get i' j' := by
  have hlt : i * N + j < A._data.length := by
    rw [A.size_eq]; exact index_lt hi hj
  unfold get put
  by_cases h : i' = i ∧ j' = j
  · obtain ⟨rfl, rfl⟩ := h
    simp [List.getD_eq_getElem?_getD, List.getElem?_set, hlt]
  · have hne : i * N + j ≠ i' * N + j' := by
      intro e
      obtain ⟨h1, h2⟩ := index_inj hj hj' e
      exact h ⟨h1.symm, h2.symm⟩
    simp [List.getD_eq_getElem?_getD, List.getElem?_set, hne, h]

theorem get_put_same (A : Matrix α M N) {i j : Nat} (hi : i < M) (hj : j < N)
    (v : α) : (A.put i j v).get i j = v := by
  rw [get_put A hi hj hj]; simp

/-- Two matrices with the same elements are the same matrix. -/
theorem ext_get {A B : Matrix α M N}
    (h : ∀ i j, i < M → j < N → A.get i j = B.get i j) : A = B := by
  obtain ⟨a, ha⟩ := A
  obtain ⟨b, hb⟩ := B
  have hab : a = b := by
    apply List.ext_getElem (by rw [ha, hb])
    intro t h1 h2
    have htMN : t < M * N := by rw [← ha]; exact h1
    have hN : 0 < N := by
      rcases Nat.eq_zero_or_pos N with h0 | h0
      · subst h0; simp at htMN
      · exact h0
    have hi : t / N < M := by
      rw [Nat.div_lt_iff_lt_mul hN]; exact htMN
    have hj : t % N < N := Nat.mod_lt _ hN
    have := h (t / N) (t % N) hi hj
    have ht : t / N * N + t % N = t := by
      rw [Nat.mul_comm]; exact Nat.div_add_mod t N
    simp only [get, ht, List.getD_eq_getElem?_getD] at this
    simpa [List.getElem?_eq_getElem h1, List.getElem?_eq_getElem h2] using this
  subst hab
  rfl

end Matrix

/-! ## Loops that fill cells -/

/-- A loop writing the value `g k` to the cell `(r k, c k)` leaves every cell it
does not address as it was. -/
theorem get_forLoop_put_miss (r c : Nat → Nat) (g : Nat → α) (n : Nat)
    (res : Matrix α M N) (hr : ∀ k, k < n → r k < M) (hc : ∀ k, k < n → c k < N)
    (a b : Nat) (hb : b < N) (hmiss : ∀ k, k < n → ¬ (a = r k ∧ b = c k)) :
    (forLoop n (fun k res => res.put (r k) (c k) (g k)) res).get a b = res.get a b := by
  induction n with
  | zero => rfl
  | succ n ih =>
    rw [forLoop_succ, Matrix.get_put _ (hr n (Nat.lt_succ_self n)) (hc n (Nat.lt_succ_self n)) hb,
      if_neg (hmiss n (Nat.lt_succ_self n))]
    exact ih (fun k hk => hr k (Nat.lt_succ_of_lt hk)) (fun k hk => hc k (Nat.lt_succ_of_lt hk))
      (fun k hk => hmiss k (Nat.lt_succ_of_lt hk))

/-- A loop writing the value `g k` to the cell `(r k, c k)`, the cells being
pairwise distinct, leaves `g k` in the cell `(r k, c k)`. -/
theorem get_forLoop_put_hit (r c : Nat → Nat) (g : Nat → α) (n : Nat)
    (res : Matrix α M N) (hr : ∀ k, k < n → r k < M) (hc : ∀ k, k < n → c k < N)
    (hinj : ∀ k, k < n → ∀ k', k' < n → r k = r k' → c k = c k' → k = k')
    (k : Nat) (hk : k < n) :
    (forLoop n (fun k res => res.put (r k) (c k) (g k)) res).get (r k) (c k) = g k := by
  induction n with
  | zero => exact absurd hk (Nat.not_lt_zero k)
  | succ n ih =>
    have hn := Nat.lt_succ_self n
    rw [forLoop_succ, Matrix.get_put _ (hr n hn) (hc n hn) (hc k hk)]
    by_cases h : r k = r n ∧ c k = c n
    · rw [if_pos h, hinj k hk n hn h.1 h.2]
    · rw [if_neg h]
      have hkn : k < n := by
        rcases Nat.lt_succ_iff_lt_or_eq.mp hk with h1 | h1
        · exact h1
        · subst h1; exact absurd ⟨rfl, rfl⟩ h
      exact ih (fun k hk => hr k (Nat.lt_succ_of_lt hk)) (fun k hk => hc k (Nat.lt_succ_of_lt hk))
        (fun k hk k' hk' => hinj k (Nat.lt_succ_of_lt hk) k' (Nat.lt_succ_of_lt hk')) hkn

/-- The two nested loops writing `g i j` to the cell `(r i j, c i j)` leave every
cell they do not address as it was. -/
theorem get_forLoop2_put_miss (r c : Nat → Nat → Nat) (g : Nat → Nat → α) (m n : Nat)
    (res : Matrix α M N) (hr : ∀ i, i < m → ∀ j, j < n → r i j < M)
    (hc : ∀ i, i < m → ∀ j, j < n → c i j < N) (a b : Nat) (hb : b < N)
    (hmiss : ∀ i, i < m → ∀ j, j < n → ¬ (a = r i j ∧ b = c i j)) :
    (forLoop m (fun i res =>
        forLoop n (fun j res => res.put (r i j) (c i j) (g i j)) res) res).get a b =
      res.get a b := by
  induction m with
  | zero => rfl
  | succ m ih =>
    have hm := Nat.lt_succ_self m
    rw [forLoop_succ, get_forLoop_put_miss (r m) (c m) (g m) n _ (hr m hm) (hc m hm) a b hb
      (hmiss m hm)]
    exact ih (fun i hi => hr i (Nat.lt_succ_of_lt hi)) (fun i hi => hc i (Nat.lt_succ_of_lt hi))
      (fun i hi => hmiss i (Nat.lt_succ_of_lt hi))

/-- The two nested loops writing `g i j` to the cell `(r i j, c i j)`, the cells
being pairwise distinct, leave `g i j` in the cell `(r i j, c i j)`. -/
theorem get_forLoop2_put_hit (r c : Nat → Nat → Nat) (g : Nat → Nat → α) (m n : Nat)
    (res : Matrix α M N) (hr : ∀ i, i < m → ∀ j, j < n → r i j < M)
    (hc : ∀ i, i < m → ∀ j, j < n → c i j < N)
    (hinj : ∀ i, i < m → ∀ j, j < n → ∀ i', i' < m → ∀ j', j' < n →
      r i j = r i' j' → c i j = c i' j' → i = i' ∧ j = j')
    (i j : Nat) (hi : i < m) (hj : j < n) :
    (forLoop m (fun i res =>
        forLoop n (fun j res => res.put (r i j) (c i j) (g i j)) res) res).get
        (r i j) (c i j) = g i j := by
  induction m with
  | zero => exact absurd hi (Nat.not_lt_zero i)
  | succ m ih =>
    have hm := Nat.lt_succ_self m
    rw [forLoop_succ]
    rcases Nat.lt_succ_iff_lt_or_eq.mp hi with h1 | h1
    · rw [get_forLoop_put_miss (r m) (c m) (g m) n _ (hr m hm) (hc m hm) _ _ (hc i hi j hj)]
      · exact ih (fun i hi => hr i (Nat.lt_succ_of_lt hi))
          (fun i hi => hc i (Nat.lt_succ_of_lt hi))
          (fun i hi j hj i' hi' j' hj' =>
            hinj i (Nat.lt_succ_of_lt hi) j hj i' (Nat.lt_succ_of_lt hi') j' hj') h1
      · intro k hk hk2
        have := (hinj i hi j hj m hm k hk hk2.1 hk2.2).1
        omega
    · subst h1
      exact get_forLoop_put_hit (r i) (c i) (g i) n _ (hr i hm) (hc i hm)
        (fun k hk k' hk' e1 e2 => (hinj i hm k hk i hm k' hk' e1 e2).2) j hj

/-- The two nested loops `res(i, j) = g i j` over a whole matrix. -/
theorem get_fill (g : Nat → Nat → α) (res : Matrix α M N) {i j : Nat} (hi : i < M)
    (hj : j < N) :
    (forLoop M (fun i res => forLoop N (fun j res => res.put i j (g i j)) res) res).get i j =
      g i j :=
  get_forLoop2_put_hit (fun i _ => i) (fun _ j => j) g M N res (fun _ h _ _ => h)
    (fun _ _ _ h => h) (fun _ _ _ _ _ _ _ _ e1 e2 => ⟨e1, e2⟩) i j hi hj

/-! ## The matrix product -/

/-- The innermost loop of the product accumulates into the cell `(i, k)` and
leaves every other cell alone. -/
theorem get_mul_inner (f : Nat → α) {i k : Nat} (hi : i < M) (hk : k < P)
    (n : Nat) (res : Matrix α M P) (i' k' : Nat) (hk' : k' < P) :
    (forLoop n (fun j res => res.put i k (res.get i k + f j)) res).get i' k' =
      if i' = i ∧ k' = k then res.get i k + ∑ j in Finset.range n, f j
      else res.get i' k' := by
  induction n generalizing i' k' with
  | zero =>
    by_cases h : i' = i ∧ k' = k
    · obtain ⟨rfl, rfl⟩ := h
      simp [forLoop]
    · simp [forLoop, h]
  | succ n ih =>
    rw [forLoop_succ, Matrix.get_put _ hi hk hk']
    by_cases h : i' = i ∧ k' = k
    · rw [if_pos h, if_pos h, ih i k hk, if_pos ⟨rfl, rfl⟩, Finset.sum_range_succ,
        add_assoc]
    · rw [if_neg h, if_neg h, ih i' k' hk', if_neg h]

/-- The middle loop of the product, over the columns `k < p` of row `i`. -/
theorem get_mul_middle (A : Matrix α M N) (B : Matrix α N P) {i : Nat}
    (hi : i < M) (p : Nat) (hp : p ≤ P) (res : Matrix α M P) (i' k' : Nat)
    (hk' : k' < P) :
    (forLoop p (fun k res =>
        forLoop N (fun j res =>
          res.put i k (res.get i k + A.get i j * B.get j k)) res) res).get i' k' =
      if i' = i ∧ k' < p then
        res.get i k' + ∑ j in Finset.range N, A.get i j * B.get j k'
      else res.get i' k' := by
  induction p generalizing i' k' with
  | zero => simp [forLoop]
  | succ p ih =>
    have hpP : p < P := hp
    rw [forLoop_succ, get_mul_inner (fun j => A.get i j * B.get j p) hi hpP N _ i' k' hk']
    by_cases h : i' = i ∧ k' = p
    · obtain ⟨rfl, rfl⟩ := h
      rw [if_pos ⟨rfl, rfl⟩, if_pos ⟨rfl, Nat.lt_succ_self _⟩,
        ih (Nat.le_of_lt hpP) i' k' hk', if_neg (by simp)]
    · rw [if_neg h, ih (Nat.le_of_lt hpP) i' k' hk']
      by_cases h2 : i' = i ∧ k' < p
      · rw [if_pos h2, if_pos ⟨h2.1, Nat.lt_succ_of_lt h2.2⟩]
      · rw [if_neg h2, if_neg]
        rintro ⟨h3, h4⟩
        rcases Nat.lt_succ_iff_lt_or_eq.mp h4 with h5 | h5
        · exact h2 ⟨h3, h5⟩
        · exact h ⟨h3, h5⟩

/-- The outer loop of the product, over the rows `i < m`. -/
theorem get_mul_outer (A : Matrix α M N) (B : Matrix α N P) (m : Nat)
    (hm : m ≤ M) (res : Matrix α M P) (i' k' : Nat) (hk' : k' < P) :
    (forLoop m (fun i res =>
        forLoop P (fun k res =>
          forLoop N (fun j res =>
            res.put i k (res.get i k + A.get i j * B.get j k)) res) res) res).get i' k' =
      if i' < m then
        res.get i' k' + ∑ j in Finset.range N, A.get i' j * B.get j k'
      else res.get i' k' := by
  induction m generalizing i' k' with
  | zero => simp [forLoop]
  | succ m ih =>
    have hmM : m < M := hm
    rw [forLoop_succ, get_mul_middle A B hmM P (Nat.le_refl P) _ i' k' hk']
    by_cases h : i' = m
    · subst h
      rw [if_pos ⟨rfl, hk'⟩, if_pos (Nat.lt_succ_self _), ih (Nat.le_of_lt hmM) i' k' hk',
        if_neg (Nat.lt_irrefl _)]
    · rw [if_neg (fun h2 => h h2.1), ih (Nat.le_of_lt hmM) i' k' hk']
      by_cases h2 : i' < m
      · rw [if_pos h2, if_pos (Nat.lt_succ_of_lt h2)]
      · rw [if_neg h2, if_neg]
        intro h3
        rcases Nat.lt_succ_iff_lt_or_eq.mp h3 with h5 | h5
        · exact h2 h5
        · exact h h5

/-- Every element of the product is the row-by-column sum. -/
theorem get_mul (A : Matrix α M N) (B : Matrix α N P) {i k : Nat} (hi : i < M)
    (hk : k < P) :
    (A.mul B).get i k = ∑ j in Finset.range N, A.get i j * B.get j k := by
  unfold Matrix.mul
  simp only []
  rw [get_mul_outer A B M (Nat.le_refl M) _ i k hk, if_pos hi, Matrix.get_setZero, zero_add]

/-! ## Early-return loops and the comparison -/

theorem forReturn_eq_none_iff {ρ : Type} (n : Nat) (body : Nat → Option ρ) :
    forReturn n body = none ↔ ∀ k, k < n → body k = none := by
  induction n with
  | zero => simp [forReturn]
  | succ n ih =>
    unfold forReturn
    cases h : forReturn n body with
    | some r =>
      simp only [false_iff, reduceCtorEq]
      intro hall
      have := ih.mpr (fun k hk => hall k (Nat.lt_succ_of_lt hk))
      rw [h] at this
      exact Option.noConfusion this
    | none =>
      simp only []
      constructor
      · intro hb k hk
        rcases Nat.lt_succ_iff_lt_or_eq.mp hk with h1 | h1
        · exact ih.mp h k h1
        · rw [h1]; exact hb
      · intro hall
        exact hall n (Nat.lt_succ_self n)

theorem forReturn_eq_some {ρ : Type} (n : Nat) (body : Nat → Option ρ) (r : ρ)
    (h : forReturn n body = some r) : ∃ k, k < n ∧ body k = some r := by
  induction n with
  | zero => simp [forReturn] at h
  | succ n ih =>
    unfold forReturn at h
    cases h2 : forReturn n body with
    | some r2 =>
      rw [h2] at h
      simp only [Option.some.injEq] at h
      subst h
      obtain ⟨k, hk, hb⟩ := ih h2
      exact ⟨k, Nat.lt_succ_of_lt hk, hb⟩
    | none =>
      rw [h2] at h
      exact ⟨n, Nat.lt_succ_self n, h⟩

/-- The comparison returns `true` exactly when no pair of elements differs by more
than the tolerance. -/
theorem eq_eq_true_iff (A B : Matrix α M N) :
    A.eq B = true ↔ ∀ i j, i < M → j < N → |A.get i j - B.get i j| ≤ 1 / 10000 := by
  unfold Matrix.eq
  simp only []
  have he : (1e-4 : α) = 1 / 10000 := by norm_num
  rw [he]
  cases h : forReturn M (fun i => forReturn N (fun j =>
      if |A.get i j - B.get i j| > 1 / 10000 then some false else none)) with
  | none =>
    simp only [true_iff]
    intro i j hi hj
    have h1 := (forReturn_eq_none_iff _ _).mp h i hi
    have h2 := (forReturn_eq_none_iff _ _).mp h1 j hj
    by_contra hc
    rw [if_pos (lt_of_not_ge hc)] at h2
    exact Option.noConfusion h2
  | some r =>
    obtain ⟨i, hi, h1⟩ := forReturn_eq_some _ _ r h
    obtain ⟨j, hj, h2⟩ := forReturn_eq_some _ _ r h1
    by_cases hc : |A.get i j - B.get i j| > 1 / 10000
    · rw [if_pos hc] at h2
      simp only [Option.some.injEq] at h2
      subst h2
      simp only [Bool.false_eq_true, false_iff]
      intro hall
      exact absurd (hall i j hi hj) (not_le_of_gt hc)
    · rw [if_neg hc] at h2
      exact Option.noConfusion h2

/-- A matrix compares equal to itself. -/
theorem eq_self (A : Matrix α M N) : A.eq A = true := by
  rw [eq_eq_true_iff]
  intro i j _ _
  simp

/-! ## The identity matrix -/

theorem get_setIdentity (A : Matrix α M N) {i j : Nat} (hi : i < M) (hj : j < N) :
    A.setIdentity.get i j = if i = j then 1 else 0 := by
  unfold Matrix.setIdentity
  by_cases h : i = j
  · subst h
    rw [if_pos rfl]
    exact get_forLoop_put_hit (fun k => k) (fun k => k) (fun _ => (1 : α)) (min M N) _
      (fun k hk => lt_of_lt_of_le hk (min_le_left M N))
      (fun k hk => lt_of_lt_of_le hk (min_le_right M N))
      (fun _ _ _ _ e _ => e) i (lt_min hi hj)
  · rw [if_neg h, get_forLoop_put_miss (fun k => k) (fun k => k) (fun _ => (1 : α)) (min M N) _
      (fun k hk => lt_of_lt_of_le hk (min_le_left M N))
      (fun k hk => lt_of_lt_of_le hk (min_le_right M N)) i j hj
      (fun k _ hk => h (hk.1.trans hk.2.symm))]
    exact Matrix.get_setZero A i j

theorem get_Identity {i j : Nat} (hi : i < M) (hj : j < N) :
    (Matrix.Identity : Matrix α M N).get i j = if i = j then 1 else 0 :=
  get_setIdentity _ hi hj

theorem Identity_mul (A : Matrix α M N) : (Matrix.Identity : Matrix α M M).mul A = A := by
  apply Matrix.ext_get
  intro i k hi hk
  rw [get_mul _ _ hi hk]
  rw [Finset.sum_congr rfl (fun j hj => by
    rw [get_Identity hi (Finset.mem_range.mp hj)])]
  simp [Finset.sum_ite_eq, hi]

theorem mul_Identity (A : Matrix α M N) : A.mul (Matrix.Identity : Matrix α N N) = A := by
  apply Matrix.ext_get
  intro i k hi hk
  rw [get_mul _ _ hi hk]
  rw [Finset.sum_congr rfl (fun j hj => by
    rw [get_Identity (Finset.mem_range.mp hj) hk])]
  simp [Finset.sum_ite_eq, hk]

/-! ## Associativity of the product -/

theorem mul_assoc_get (A : Matrix α M N) (B : Matrix α N P) (C : Matrix α P R) :
    (A.mul B).mul C = A.mul (B.mul C) := by
  apply Matrix.ext_get
  intro i l hi hl
  rw [get_mul _ _ hi hl, get_mul _ _ hi hl]
  have h1 : ∀ k, k ∈ Finset.range P → (A.mul B).get i k * C.get k l =
      ∑ j in Finset.range N, A.get i j * B.get j k * C.get k l := by
    intro k hk
    rw [get_mul A B hi (Finset.mem_range.mp hk), Finset.sum_mul]
  have h2 : ∀ j, j ∈ Finset.range N → A.get i j * (B.mul C).get j l =
      ∑ k in Finset.range P, A.get i j * B.get j k * C.get k l := by
    intro j hj
    rw [get_mul B C (Finset.mem_range.mp hj) hl, Finset.mul_sum]
    exact Finset.sum_congr rfl (fun k _ => (mul_assoc _ _ _).symm)
  rw [Finset.sum_congr rfl h1, Finset.sum_congr rfl h2, Finset.sum_comm]

/-! ## Transpose -/

theorem get_transpose (A : Matrix α M N) {i j : Nat} (hi : i < M) (hj : j < N) :
    A.transpose.get j i = A.get i j := by
  unfold Matrix.transpose
  exact get_forLoop2_put_hit (fun _ j => j) (fun i _ => i) (fun i j => A.get i j) M N _
    (fun _ _ _ h => h) (fun _ h _ _ => h) (fun _ _ _ _ _ _ _ _ e1 e2 => ⟨e2, e1⟩) i j hi hj

theorem transpose_transpose (A : Matrix α M N) : A.transpose.transpose = A := by
  apply Matrix.ext_get
  intro i j hi hj
  rw [get_transpose A.transpose hj hi, get_transpose A hi hj]

/-! ## Writing a sub-block -/

theorem get_set_inside (A : Matrix α M N) (B : Matrix α P Q) {x0 y0 : Nat}
    (hx : x0 + P ≤ M) (hy : y0 + Q ≤ N) {i j : Nat} (hi : i < P) (hj : j < Q) :
    (A.set B x0 y0).get (i + x0) (j + y0) = B.get i j := by
  unfold Matrix.set
  exact get_forLoop2_put_hit (fun i _ => i + x0) (fun _ j => j + y0) (fun i j => B.get i j)
    P Q A (fun i h _ _ => by dsimp only; omega) (fun _ _ j h => by dsimp only; omega)
    (fun _ _ _ _ _ _ _ _ e1 e2 => by dsimp only at e1 e2; omega) i j hi hj

theorem get_set_outside (A : Matrix α M N) (B : Matrix α P Q) {x0 y0 : Nat}
    (hx : x0 + P ≤ M) (hy : y0 + Q ≤ N) {a b : Nat} (hb : b < N)
    (hout : ¬ (x0 ≤ a ∧ a < x0 + P ∧ y0 ≤ b ∧ b < y0 + Q)) :
    (A.set B x0 y0).get a b = A.get a b := by
  unfold Matrix.set
  exact get_forLoop2_put_miss (fun i _ => i + x0) (fun _ j => j + y0) (fun i j => B.get i j)
    P Q A (fun i h _ _ => by dsimp only; omega) (fun _ _ j h => by dsimp only; omega) a b hb
    (fun i hi j hj h => hout (by dsimp only at h; omega))

/-! ## Swapping rows and columns -/

theorem get_swapRows_loop (A : Matrix α M N) {a b : Nat} (ha : a < M) (hb : b < M)
    (hab : a ≠ b) (n : Nat) (hn : n ≤ N) (i j : Nat) (hj : j < N) :
    (forLoop n (fun j self =>
        let tmp := self.get a j
        let self := self.put a j (self.get b j)
        self.put b j tmp) A).get i j =
      if j < n then (if i = a then A.get b j else if i = b then A.get a j else A.get i j)
      else A.get i j := by
  induction n generalizing i j with
  | zero => simp [forLoop]
  | succ n ih =>
    have hnN : n < N := hn
    have hn' : n ≤ N := Nat.le_of_lt hnN
    rw [forLoop_succ]
    simp only []
    rw [Matrix.get_put _ hb hnN hj, Matrix.get_put _ ha hnN hj]
    rw [ih hn' a n hnN, ih hn' b n hnN, ih hn' i j hj]
    simp only [Nat.lt_irrefl, if_false]
    by_cases hjn : j = n
    · subst hjn
      simp only [Nat.lt_irrefl, if_false, and_true, Nat.lt_succ_self, if_true]
      by_cases h1 : i = b
      · subst h1
        simp [Ne.symm hab]
      · simp [h1]
    · have h2 : j < n + 1 ↔ j < n := by omega
      simp [hjn, h2]

theorem get_swapRows (A : Matrix α M N) {a b : Nat} (ha : a < M) (hb : b < M)
    (i j : Nat) (hj : j < N) :
    (A.swapRows a b).get i j =
      if i = a then A.get b j else if i = b then A.get a j else A.get i j := by
  unfold Matrix.swapRows
  by_cases hab : a = b
  · subst hab
    rw [if_pos rfl]
    by_cases h : i = a
    · subst h; simp
    · simp [h]
  · rw [if_neg hab, get_swapRows_loop A ha hb hab N (Nat.le_refl N) i j hj, if_pos hj]

theorem get_swapCols_loop (A : Matrix α M N) {a b : Nat} (ha : a < N) (hb : b < N)
    (hab : a ≠ b) (m : Nat) (hm : m ≤ M) (i j : Nat) (hj : j < N) :
    (forLoop m (fun i self =>
        let tmp := self.get i a
        let self := self.put i a (self.get i b)
        self.put i b tmp) A).get i j =
      if i < m then (if j = a then A.get i b else if j = b then A.get i a else A.get i j)
      else A.get i j := by
  induction m generalizing i j with
  | zero => simp [forLoop]
  | succ m ih =>
    have hmM : m < M := hm
    have hm' : m ≤ M := Nat.le_of_lt hmM
    rw [forLoop_succ]
    simp only []
    rw [Matrix.get_put _ hmM hb hj, Matrix.get_put _ hmM ha hj]
    rw [ih hm' m a ha, ih hm' m b hb, ih hm' i j hj]
    simp only [Nat.lt_irrefl, if_false]
    by_cases him : i = m
    · subst him
      simp only [Nat.lt_irrefl, if_false, true_and, Nat.lt_succ_self, if_true]
      by_cases h1 : j = b
      · subst h1
        simp [Ne.symm hab]
      · simp [h1]
    · have h2 : i < m + 1 ↔ i < m := by omega
      simp [him, h2]

theorem get_swapCols (A : Matrix α M N) {a b : Nat} (ha : a < N) (hb : b < N)
    (i j : Nat) (hj : j < N) :
    (A.swapCols a b).get i j =
      if j = a then A.get i b else if j = b then A.get i a else A.get i j := by
  unfold Matrix.swapCols
  by_cases hab : a = b
  · subst hab
    rw [if_pos rfl]
    by_cases h : j = a
    · subst h; simp
    · simp [h]
  · rw [if_neg hab]
    by_cases hi : i < M
    · rw [get_swapCols_loop A ha hb hab M (Nat.le_refl M) i j hj, if_pos hi]
    · rw [get_swapCols_loop A ha hb hab M (Nat.le_refl M) i j hj, if_neg hi]
      have hge : M * N ≤ i * N + a := by
        have : M * N ≤ i * N := Nat.mul_le_mul_right N (Nat.le_of_not_lt hi)
        omega
      have hge2 : M * N ≤ i * N + b := by
        have : M * N ≤ i * N := Nat.mul_le_mul_right N (Nat.le_of_not_lt hi)
        omega
      have hge3 : M * N ≤ i * N + j := by
        have : M * N ≤ i * N := Nat.mul_le_mul_right N (Nat.le_of_not_lt hi)
        omega
      have g : ∀ t, M * N ≤ t → A._data.getD t 0 = 0 := by
        intro t ht
        rw [List.getD_eq_getElem?_getD, List.getElem?_eq_none (by rw [A.size_eq]; exact ht)]
        rfl
      simp only [Matrix.get, g _ hge, g _ hge2, g _ hge3]
      simp

/-! ## Clamping -/

theorem get_limited (toFloat : α → α) (A lo hi : Matrix α M N) {i j : Nat} (hi' : i < M)
    (hj : j < N) :
    (A.limited toFloat lo hi).get i j =
      if (if toFloat (A.get i j) < lo.get i j then toFloat (lo.get i j)
          else toFloat (A.get i j)) > hi.get i j then
        toFloat (hi.get i j)
      else (if toFloat (A.get i j) < lo.get i j then toFloat (lo.get i j)
          else toFloat (A.get i j)) := by
  unfold Matrix.limited
  exact get_fill (fun i j =>
    if (if toFloat (A.get i j) < lo.get i j then toFloat (lo.get i j)
        else toFloat (A.get i j)) > hi.get i j then
      toFloat (hi.get i j)
    else (if toFloat (A.get i j) < lo.get i j then toFloat (lo.get i j)
        else toFloat (A.get i j))) _ hi' hj

/-- Where the element and both bounds are unchanged by the conversion to `float`
(always so for `Type = float`) and `lo(i,j) ≤ hi(i,j)`, `limited` clamps the
element into `[lo(i,j), hi(i,j)]`. -/
theorem get_limited_of_exact (toFloat : α → α) (A lo hi : Matrix α M N) {i j : Nat}
    (hi' : i < M) (hj : j < N) (hA : toFloat (A.get i j) = A.get i j)
    (hlo : toFloat (lo.get i j) = lo.get i j) (hhi : toFloat (hi.get i j) = hi.get i j)
    (hlh : lo.get i j ≤ hi.get i j) :
    (lo.get i j ≤ (A.limited toFloat lo hi).get i j ∧
      (A.limited toFloat lo hi).get i j ≤ hi.get i j) ∧
    (lo.get i j ≤ A.get i j → A.get i j ≤ hi.get i j →
      (A.limited toFloat lo hi).get i j = A.get i j) ∧
    (A.get i j < lo.get i j → (A.limited toFloat lo hi).get i j = lo.get i j) ∧
    (A.get i j > hi.get i j → (A.limited toFloat lo hi).get i j = hi.get i j) := by
  rw [get_limited toFloat A lo hi hi' hj, hA, hlo, hhi]
  refine ⟨?_, ?_, ?_, ?_⟩
  · by_cases h1 : A.get i j < lo.get i j
    · rw [if_pos h1, if_neg (not_lt_of_ge hlh)]
      exact ⟨le_refl _, hlh⟩
    · rw [if_neg h1]
      by_cases h2 : A.get i j > hi.get i j
      · rw [if_pos h2]; exact ⟨hlh, le_refl _⟩
      · rw [if_neg h2]; exact ⟨le_of_not_lt h1, le_of_not_lt h2⟩
  · intro h1 h2
    rw [if_neg (not_lt_of_ge h1), if_neg (not_lt_of_ge h2)]
  · intro h1
    rw [if_pos h1, if_neg (not_lt_of_ge hlh)]
  · intro h2
    have h1 : ¬ A.get i j < lo.get i j := not_lt_of_ge (le_trans hlh (le_of_lt h2))
    rw [if_neg h1, if_pos h2]

/-- Where the element and both bounds are unchanged by the conversion to `float`
(always so for `Type = float`) and `lo(i,j) > hi(i,j)`, `limited` returns
`hi(i,j)`. -/
theorem get_limited_inverted_of_exact (toFloat : α → α) (A lo hi : Matrix α M N)
    {i j : Nat} (hi' : i < M) (hj : j < N) (hA : toFloat (A.get i j) = A.get i j)
    (hlo : toFloat (lo.get i j) = lo.get i j) (hhi : toFloat (hi.get i j) = hi.get i j)
    (hinv : lo.get i j > hi.get i j) :
    (A.limited toFloat lo hi).get i j = hi.get i j := by
  rw [get_limited toFloat A lo hi hi' hj, hA, hlo, hhi]
  by_cases h1 : A.get i j < lo.get i j
  · rw [if_pos h1, if_pos hinv]
  · rw [if_neg h1, if_pos (lt_of_lt_of_le hinv (le_of_not_lt h1))]

/-! ## The conversion to `float` at some values -/

theorem log_two_one_tenth : Int.log 2 |(1 / 10 : ℚ)| = -4 := by
  apply le_antisymm
  · have h : Int.log 2 |(1 / 10 : ℚ)| < -3 := by
      rw [← Int.lt_zpow_iff_log_lt (by norm_num) (by norm_num)]
      norm_num [abs_of_pos]
    omega
  · rw [← Int.zpow_le_iff_le_log (by norm_num) (by norm_num)]
    norm_num [abs_of_pos]

theorem log_two_one_half : Int.log 2 |(1 / 2 : ℚ)| = -1 := by
  apply le_antisymm
  · have h : Int.log 2 |(1 / 2 : ℚ)| < 0 := by
      rw [← Int.lt_zpow_iff_log_lt (by norm_num) (by norm_num)]
      norm_num [abs_of_pos]
    omega
  · rw [← Int.zpow_le_iff_le_log (by norm_num) (by norm_num)]
    norm_num [abs_of_pos]

/-- The `float` nearest to `0.1` is `13421773 / 2 ^ 27 = 0.100000001490116...`. -/
theorem roundToFloat_one_tenth : roundToFloat (1 / 10) = 13421773 / 134217728 := by
  unfold roundToFloat
  rw [if_neg (by norm_num), log_two_one_tenth]
  have hmax : max (-4 : ℤ) (-126) = -4 := by decide
  simp only [hmax]
  have hx : (1 / 10 : ℚ) / 2 ^ ((-4 : ℤ) - 23) = 67108864 / 5 := by norm_num
  have hf : ⌊(67108864 / 5 : ℚ)⌋ = 13421772 := by
    rw [Int.floor_eq_iff]; constructor <;> norm_num
  rw [hx]
  unfold roundHalfEven
  rw [hf]
  norm_num

/-- The value `0.5` is a `float`. -/
theorem roundToFloat_one_half : roundToFloat (1 / 2) = 1 / 2 := by
  unfold roundToFloat
  rw [if_neg (by norm_num), log_two_one_half]
  have hmax : max (-1 : ℤ) (-126) = -1 := by decide
  simp only [hmax]
  have hx : (1 / 2 : ℚ) / 2 ^ ((-1 : ℤ) - 23) = 8388608 := by norm_num
  have hf : ⌊(8388608 : ℚ)⌋ = 8388608 := by
    rw [Int.floor_eq_iff]; constructor <;> norm_num
  rw [hx]
  unfold roundHalfEven
  rw [hf]
  norm_num

/-- The value `1` is a `float`. -/
theorem roundToFloat_one : roundToFloat 1 = 1 := by
  unfold roundToFloat
  rw [if_neg (by norm_num), abs_one, Int.log_one_right]
  have hmax : max (0 : ℤ) (-126) = 0 := by decide
  simp only [hmax]
  have hx : (1 : ℚ) / 2 ^ ((0 : ℤ) - 23) = 8388608 := by norm_num
  have hf : ⌊(8388608 : ℚ)⌋ = 8388608 := by
    rw [Int.floor_eq_iff]; constructor <;> norm_num
  rw [hx]
  unfold roundHalfEven
  rw [hf]
  norm_num

/-! ## Scalar operations -/

theorem get_mulScalar (A : Matrix α M N) (s : α) {i j : Nat} (hi : i < M) (hj : j < N) :
    (A.mulScalar s).get i j = A.get i j * s := by
  unfold Matrix.mulScalar
  exact get_fill (fun i j => A.get i j * s) _ hi hj

theorem get_addScalar (A : Matrix α M N) (s : α) {i j : Nat} (hi : i < M) (hj : j < N) :
    (A.addScalar s).get i j = A.get i j + s := by
  unfold Matrix.addScalar
  exact get_fill (fun i j => A.get i j + s) _ hi hj

/-- The inner loop of an in-place update `self(i, j) = f (self(i, j))` over the
columns `j < n` of row `i`. -/
theorem get_update_inner (f : α → α) {i : Nat} (hi : i < M) (n : Nat) (hn : n ≤ N)
    (A : Matrix α M N) (i' j' : Nat) (hj' : j' < N) :
    (forLoop n (fun j self => self.put i j (f (self.get i j))) A).get i' j' =
      if i' = i ∧ j' < n then f (A.get i j') else A.get i' j' := by
  induction n generalizing i' j' with
  | zero => simp [forLoop]
  | succ n ih =>
    have hnN : n < N := hn
    have hn' : n ≤ N := Nat.le_of_lt hnN
    rw [forLoop_succ, Matrix.get_put _ hi hnN hj', ih hn' i n hnN, ih hn' i' j' hj']
    by_cases h : i' = i ∧ j' = n
    · obtain ⟨rfl, rfl⟩ := h
      simp
    · rw [if_neg h]
      by_cases h2 : i' = i ∧ j' < n
      · rw [if_pos h2, if_pos ⟨h2.1, Nat.lt_succ_of_lt h2.2⟩]
      · rw [if_neg h2, if_neg]
        rintro ⟨h3, h4⟩
        rcases Nat.lt_succ_iff_lt_or_eq.mp h4 with h5 | h5
        · exact h2 ⟨h3, h5⟩
        · exact h ⟨h3, h5⟩

/-- The two nested loops of an in-place update `self(i, j) = f (self(i, j))`. -/
theorem get_update_outer (f : α → α) (m : Nat) (hm : m ≤ M) (A : Matrix α M N)
    (i' j' : Nat) (hj' : j' < N) :
    (forLoop m (fun i self =>
        forLoop N (fun j self => self.put i j (f (self.get i j))) self) A).get i' j' =
      if i' < m then f (A.get i' j') else A.get i' j' := by
  induction m generalizing i' j' with
  | zero => simp [forLoop]
  | succ m ih =>
    have hmM : m < M := hm
    have hm' : m ≤ M := Nat.le_of_lt hmM
    rw [forLoop_succ, get_update_inner f hmM N (Nat.le_refl N) _ i' j' hj']
    by_cases h : i' = m
    · subst h
      rw [if_pos ⟨rfl, hj'⟩, if_pos (Nat.lt_succ_self _), ih hm' i' j' hj',
        if_neg (Nat.lt_irrefl _)]
    · rw [if_neg (fun h2 => h h2.1), ih hm' i' j' hj']
      by_cases h2 : i' < m
      · rw [if_pos h2, if_pos (Nat.lt_succ_of_lt h2)]
      · rw [if_neg h2, if_neg]
        intro h3
        rcases Nat.lt_succ_iff_lt_or_eq.mp h3 with h5 | h5
        · exact h2 h5
        · exact h h5

theorem get_mulAssignScalar (A : Matrix α M N) (s : α) {i j : Nat} (hi : i < M)
    (hj : j < N) : (A.mulAssignScalar s).get i j = A.get i j * s := by
  unfold Matrix.mulAssignScalar
  rw [get_update_outer (fun x => x * s) M (Nat.le_refl M) A i j hj, if_pos hi]

theorem mulAssignScalar_eq (A : Matrix α M N) (s : α) :
    A.mulAssignScalar s = A.mulScalar s := by
  apply Matrix.ext_get
  intro i j hi hj
  rw [get_mulAssignScalar A s hi hj, get_mulScalar A s hi hj]

/-! ## Rows and columns -/

theorem get_getRow (A : Matrix α M N) (i : Nat) {c : Nat} (hc : c < N) :
    (A.getRow i).get 0 c = A.get i c := by
  unfold Matrix.getRow
  exact get_forLoop_put_hit (fun _ => 0) (fun c => c) (fun c => A.get i c) N _
    (fun _ _ => Nat.zero_lt_one) (fun _ h => h) (fun _ _ _ _ _ e => e) c hc

theorem get_getCol (A : Matrix α M N) (j : Nat) {c : Nat} (hc : c < M) :
    (A.getCol j).get c 0 = A.get c j := by
  unfold Matrix.getCol
  exact get_forLoop_put_hit (fun c => c) (fun _ => 0) (fun c => A.get c j) M _
    (fun _ h => h) (fun _ _ => Nat.zero_lt_one) (fun _ _ _ _ e _ => e) c hc

theorem get_setRow (A : Matrix α M N) {i : Nat} (hi : i < M) (row : Matrix α 1 N)
    (a b : Nat) (hb : b < N) :
    (A.setRow i row).get a b = if a = i then row.get 0 b else A.get a b := by
  unfold Matrix.setRow
  by_cases h : a = i
  · subst h
    rw [if_pos rfl]
    exact get_forLoop_put_hit (fun _ => a) (fun j => j) (fun j => row.get 0 j) N A
      (fun _ _ => hi) (fun _ h => h) (fun _ _ _ _ _ e => e) b hb
  · rw [if_neg h]
    exact get_forLoop_put_miss (fun _ => i) (fun j => j) (fun j => row.get 0 j) N A
      (fun _ _ => hi) (fun _ h => h) a b hb (fun _ _ e => h e.1)

theorem get_setCol (A : Matrix α M N) {j : Nat} (hj : j < N) (col : Matrix α M 1)
    (a b : Nat) (ha : a < M) (hb : b < N) :
    (A.setCol j col).get a b = if b = j then col.get a 0 else A.get a b := by
  unfold Matrix.setCol
  by_cases h : b = j
  · subst h
    rw [if_pos rfl]
    exact get_forLoop_put_hit (fun i => i) (fun _ => b) (fun i => col.get i 0) M A
      (fun _ h => h) (fun _ _ => hj) (fun _ _ _ _ e _ => e) a ha
  · rw [if_neg h]
    exact get_forLoop_put_miss (fun i => i) (fun _ => j) (fun i => col.get i 0) M A
      (fun _ h => h) (fun _ _ => hj) a b hb (fun _ _ e => h e.2)

/-! ## The pointer constructor and slice -/

/-- The flat cells read by a copy of `P * Q` cells starting at cell `(x0, y0)`
stay inside an `M × N` storage when the block has at least one row. -/
theorem slice_index_lt {x0 y0 t : Nat} (hP : 1 ≤ P) (hx : x0 + P ≤ M) (hy : y0 + Q ≤ N)
    (ht : t < P * Q) : x0 * N + y0 + t < M * N := by
  obtain ⟨p, rfl⟩ : ∃ p, P = p + 1 := ⟨P - 1, by omega⟩
  have h1 : (p + 1) * Q + (p + 1) * y0 = (p + 1) * (y0 + Q) := by ring
  have h2 : (p + 1) * (y0 + Q) ≤ (p + 1) * N := Nat.mul_le_mul_left _ hy
  have h3 : x0 * N + (p + 1) * N = (x0 + (p + 1)) * N := by ring
  have h4 : (x0 + (p + 1)) * N ≤ M * N := Nat.mul_le_mul_right _ hx
  have h5 : y0 ≤ (p + 1) * y0 := Nat.le_mul_of_pos_left y0 (Nat.succ_pos p)
  omega

theorem ofPtr_eq_some_of_lt (buf : List α) (off : Nat)
    (h : ∀ t, t < P * Q → off + t < buf.length) :
    ∃ S : Matrix α P Q, Matrix.ofPtr buf off = some S := by
  unfold Matrix.ofPtr
  rw [if_pos h]
  exact ⟨_, rfl⟩

theorem get_ofPtr (buf : List α) (off : Nat) (S : Matrix α P Q)
    (h : Matrix.ofPtr buf off = some S) {i j : Nat} (hi : i < P) (hj : j < Q) :
    S.get i j = buf.getD (off + (i * Q + j)) 0 := by
  unfold Matrix.ofPtr at h
  split at h
  · simp only [Option.some.injEq] at h
    subst h
    have hlt : i * Q + j < P * Q := index_lt hi hj
    simp [Matrix.get, List.getD_eq_getElem?_getD, List.getElem?_map, List.getElem?_range hlt]
  · exact Option.noConfusion h

/-! ## Extremes -/

/-- The scan of row `i` for the maximum, started from `v0`. -/
theorem max_inner (A : Matrix α M N) (i n : Nat) (v0 : α) :
    v0 ≤ forLoop n (fun j max_val =>
        let val := A.get i j
        if val > max_val then val else max_val) v0 ∧
    (∀ j, j < n → A.get i j ≤ forLoop n (fun j max_val =>
        let val := A.get i j
        if val > max_val then val else max_val) v0) ∧
    (forLoop n (fun j max_val =>
        let val := A.get i j
        if val > max_val then val else max_val) v0 = v0 ∨
      ∃ j, j < n ∧ forLoop n (fun j max_val =>
        let val := A.get i j
        if val > max_val then val else max_val) v0 = A.get i j) := by
  induction n with
  | zero => exact ⟨le_refl _, fun j hj => absurd hj (Nat.not_lt_zero j), Or.inl rfl⟩
  | succ n ih =>
    obtain ⟨h1, h2, h3⟩ := ih
    rw [forLoop_succ]
    simp only []
    by_cases hc : A.get i n > forLoop n (fun j max_val =>
        let val := A.get i j
        if val > max_val then val else max_val) v0
    · rw [if_pos hc]
      refine ⟨le_trans h1 (le_of_lt hc), ?_, Or.inr ⟨n, Nat.lt_succ_self n, rfl⟩⟩
      intro j hj
      rcases Nat.lt_succ_iff_lt_or_eq.mp hj with h | h
      · exact le_trans (h2 j h) (le_of_lt hc)
      · rw [h]
    · rw [if_neg hc]
      refine ⟨h1, ?_, ?_⟩
      · intro j hj
        rcases Nat.lt_succ_iff_lt_or_eq.mp hj with h | h
        · exact h2 j h
        · rw [h]; exact le_of_not_lt hc
      · rcases h3 with h | ⟨j, hj, h⟩
        · exact Or.inl h
        · exact Or.inr ⟨j, Nat.lt_succ_of_lt hj, h⟩

/-- The scan of the rows `i < m` for the maximum, started from `v0`. -/
theorem max_outer (A : Matrix α M N) (m : Nat) (v0 : α) :
    v0 ≤ forLoop m (fun i max_val => forLoop N (fun j max_val =>
        let val := A.get i j
        if val > max_val then val else max_val) max_val) v0 ∧
    (∀ i j, i < m → j < N → A.get i j ≤ forLoop m (fun i max_val =>
      forLoop N (fun j max_val =>
        let val := A.get i j
        if val > max_val then val else max_val) max_val) v0) ∧
    (forLoop m (fun i max_val => forLoop N (fun j max_val =>
        let val := A.get i j
        if val > max_val then val else max_val) max_val) v0 = v0 ∨
      ∃ i j, i < m ∧ j < N ∧ forLoop m (fun i max_val => forLoop N (fun j max_val =>
        let val := A.get i j
        if val > max_val then val else max_val) max_val) v0 = A.get i j) := by
  induction m with
  | zero => exact ⟨le_refl _, fun i j hi _ => absurd hi (Nat.not_lt_zero i), Or.inl rfl⟩
  | succ m ih =>
    obtain ⟨h1, h2, h3⟩ := ih
    rw [forLoop_succ]
    obtain ⟨g1, g2, g3⟩ := max_inner A m N (forLoop m (fun i max_val =>
      forLoop N (fun j max_val =>
        let val := A.get i j
        if val > max_val then val else max_val) max_val) v0)
    refine ⟨le_trans h1 g1, ?_, ?_⟩
    · intro i j hi hj
      rcases Nat.lt_succ_iff_lt_or_eq.mp hi with h | h
      · exact le_trans (h2 i j h hj) g1
      · rw [h]; exact g2 j hj
    · rcases g3 with g | ⟨j, hj, g⟩
      · rw [g]
        rcases h3 with h | ⟨i, j, hi, hj, h⟩
        · exact Or.inl h
        · exact Or.inr ⟨i, j, Nat.lt_succ_of_lt hi, hj, h⟩
      · exact Or.inr ⟨m, j, Nat.lt_succ_self m, hj, g⟩

/-- The scan of row `i` for the minimum, started from `v0`. -/
theorem min_inner (A : Matrix α M N) (i n : Nat) (v0 : α) :
    forLoop n (fun j min_val =>
        let val := A.get i j
        if val < min_val then val else min_val) v0 ≤ v0 ∧
    (∀ j, j < n → forLoop n (fun j min_val =>
        let val := A.get i j
        if val < min_val then val else min_val) v0 ≤ A.get i j) ∧
    (forLoop n (fun j min_val =>
        let val := A.get i j
        if val < min_val then val else min_val) v0 = v0 ∨
      ∃ j, j < n ∧ forLoop n (fun j min_val =>
        let val := A.get i j
        if val < min_val then val else min_val) v0 = A.get i j) := by
  induction n with
  | zero => exact ⟨le_refl _, fun j hj => absurd hj (Nat.not_lt_zero j), Or.inl rfl⟩
  | succ n ih =>
    obtain ⟨h1, h2, h3⟩ := ih
    rw [forLoop_succ]
    simp only []
    by_cases hc : A.get i n < forLoop n (fun j min_val =>
        let val := A.get i j
        if val < min_val then val else min_val) v0
    · rw [if_pos hc]
      refine ⟨le_trans (le_of_lt hc) h1, ?_, Or.inr ⟨n, Nat.lt_succ_self n, rfl⟩⟩
      intro j hj
      rcases Nat.lt_succ_iff_lt_or_eq.mp hj with h | h
      · exact le_trans (le_of_lt hc) (h2 j h)
      · rw [h]
    · rw [if_neg hc]
      refine ⟨h1, ?_, ?_⟩
      · intro j hj
        rcases Nat.lt_succ_iff_lt_or_eq.mp hj with h | h
        · exact h2 j h
        · rw [h]; exact le_of_not_lt hc
      · rcases h3 with h | ⟨j, hj, h⟩
        · exact Or.inl h
        · exact Or.inr ⟨j, Nat.lt_succ_of_lt hj, h⟩

/-- The scan of the rows `i < m` for the minimum, started from `v0`. -/
theorem min_outer (A : Matrix α M N) (m : Nat) (v0 : α) :
    forLoop m (fun i min_val => forLoop N (fun j min_val =>
        let val := A.get i j
        if val < min_val then val else min_val) min_val) v0 ≤ v0 ∧
    (∀ i j, i < m → j < N → forLoop m (fun i min_val =>
      forLoop N (fun j min_val =>
        let val := A.get i j
        if val < min_val then val else min_val) min_val) v0 ≤ A.get i j) ∧
    (forLoop m (fun i min_val => forLoop N (fun j min_val =>
        let val := A.get i j
        if val < min_val then val else min_val) min_val) v0 = v0 ∨
      ∃ i j, i < m ∧ j < N ∧ forLoop m (fun i min_val => forLoop N (fun j min_val =>
        let val := A.get i j
        if val < min_val then val else min_val) min_val) v0 = A.get i j) := by
  induction m with
  | zero => exact ⟨le_refl _, fun i j hi _ => absurd hi (Nat.not_lt_zero i), Or.inl rfl⟩
  | succ m ih =>
    obtain ⟨h1, h2, h3⟩ := ih
    rw [forLoop_succ]
    obtain ⟨g1, g2, g3⟩ := min_inner A m N (forLoop m (fun i min_val =>
      forLoop N (fun j min_val =>
        let val := A.get i j
        if val < min_val then val else min_val) min_val) v0)
    refine ⟨le_trans g1 h1, ?_, ?_⟩
    · intro i j hi hj
      rcases Nat.lt_succ_iff_lt_or_eq.mp hi with h | h
      · exact le_trans g1 (h2 i j h hj)
      · rw [h]; exact g2 j hj
    · rcases g3 with g | ⟨j, hj, g⟩
      · rw [g]
        rcases h3 with h | ⟨i, j, hi, hj, h⟩
        · exact Or.inl h
        · exact Or.inr ⟨i, j, Nat.lt_succ_of_lt hi, hj, h⟩
      · exact Or.inr ⟨m, j, Nat.lt_succ_self m, hj, g⟩

theorem max_mem (A : Matrix α M N) (hM : 1 ≤ M) (hN : 1 ≤ N) :
    ∃ i j, i < M ∧ j < N ∧ A.max = A.get i j := by
  unfold Matrix.max
  rcases (max_outer A M (A.get 0 0)).2.2 with h | h
  · exact ⟨0, 0, hM, hN, h⟩
  · exact h

theorem le_max (A : Matrix α M N) {i j : Nat} (hi : i < M) (hj : j < N) :
    A.get i j ≤ A.max := by
  unfold Matrix.max
  exact (max_outer A M (A.get 0 0)).2.1 i j hi hj

theorem min_mem (A : Matrix α M N) (hM : 1 ≤ M) (hN : 1 ≤ N) :
    ∃ i j, i < M ∧ j < N ∧ A.min = A.get i j := by
  unfold Matrix.min
  rcases (min_outer A M (A.get 0 0)).2.2 with h | h
  · exact ⟨0, 0, hM, hN, h⟩
  · exact h

theorem min_le (A : Matrix α M N) {i j : Nat} (hi : i < M) (hj : j < N) :
    A.min ≤ A.get i j := by
  unfold Matrix.min
  exact (min_outer A M (A.get 0 0)).2.1 i j hi hj

/-! ## Counting the diagonal of the identity -/

/-- The cells of `Identity()` that hold `1` are the `min M N` diagonal cells. -/
theorem card_Identity_ones :
    ((Finset.range M ×ˢ Finset.range N).filter
      (fun p => (Matrix.Identity : Matrix α M N).get p.1 p.2 = 1)).card = min M N := by
  have hset : (Finset.range M ×ˢ Finset.range N).filter
      (fun p => (Matrix.Identity : Matrix α M N).get p.1 p.2 = 1) =
      (Finset.range (min M N)).image (fun k => (k, k)) := by
    ext ⟨a, b⟩
    simp only [Finset.mem_filter, Finset.mem_product, Finset.mem_range, Finset.mem_image,
      Prod.mk.injEq]
    constructor
    · rintro ⟨⟨ha, hb⟩, h⟩
      rw [get_Identity ha hb] at h
      by_cases hab : a = b
      · subst hab
        exact ⟨a, lt_min ha hb, rfl, rfl⟩
      · rw [if_neg hab] at h
        exact absurd h zero_ne_one
    · rintro ⟨k, hk, rfl, rfl⟩
      have hkM : k < M := lt_of_lt_of_le hk (min_le_left M N)
      have hkN : k < N := lt_of_lt_of_le hk (min_le_right M N)
      refine ⟨⟨hkM, hkN⟩, ?_⟩
      rw [get_Identity hkM hkN, if_pos rfl]
  rw [hset, Finset.card_image_of_injective _ (fun x y h => (Prod.mk.inj h).1), Finset.card_range]

/-! ## Claims -/

/-- C1: for `A` of shape `M×N` and `B` of shape `N×P`, every element `(i, k)` of the
product `A * B` with `i < M` and `k < P` is the sum over `j < N` of
`A(i,j) * B(j,k)`; and `[[1,2],[3,4]] * [[5,6],[7,8]]` is `[[19,22],[43,50]]`. -/
theorem mul_spec (A : Matrix α M N) (B : Matrix α N P) (i k : Nat) (hi : i < M)
    (hk : k < P) :
    (A.mul B).get i k = ∑ j in Finset.range N, A.get i j * B.get j k ∧
    (Matrix.ofArray [1, 2, 3, 4] rfl : Matrix α 2 2).mul
      (Matrix.ofArray [5, 6, 7, 8] rfl : Matrix α 2 2) =
      Matrix.ofArray [19, 22, 43, 50] rfl := by
  refine ⟨get_mul A B hi hk, ?_⟩
  apply Matrix.ext_get
  intro a b ha hb
  rw [get_mul _ _ ha hb]
  have ha' : a = 0 ∨ a = 1 := by omega
  have hb' : b = 0 ∨ b = 1 := by omega
  rcases ha' with rfl | rfl <;> rcases hb' with rfl | rfl <;>
    simp [Finset.sum_range_succ, Matrix.get, Matrix.ofArray] <;> norm_num

/-- Witness of `mul_spec`: the element `(1, 0)` of `[[1,2],[3,4]] * [[5,6],[7,8]]`
over the rationals. -/
theorem mul_spec_witness :
    (1 < 2 ∧ 0 < 2) ∧
    (((Matrix.ofArray [1, 2, 3, 4] rfl : Matrix ℚ 2 2).mul
        (Matrix.ofArray [5, 6, 7, 8] rfl : Matrix ℚ 2 2)).get 1 0 =
      ∑ j in Finset.range 2, (Matrix.ofArray [1, 2, 3, 4] rfl : Matrix ℚ 2 2).get 1 j *
        (Matrix.ofArray [5, 6, 7, 8] rfl : Matrix ℚ 2 2).get j 0 ∧
    (Matrix.ofArray [1, 2, 3, 4] rfl : Matrix ℚ 2 2).mul
      (Matrix.ofArray [5, 6, 7, 8] rfl : Matrix ℚ 2 2) =
      Matrix.ofArray [19, 22, 43, 50] rfl) :=
  ⟨⟨by decide, by decide⟩,
    mul_spec (Matrix.ofArray [1, 2, 3, 4] rfl) (Matrix.ofArray [5, 6, 7, 8] rfl) 1 0
      (by decide) (by decide)⟩

/-- C2 (the code departs from the claim): on `A = [[1,2],[3,4]]` the call
`A.slice<2,1>(0, 0)` copies the two consecutive cells `1, 2` of the storage and
returns `[[1],[2]]`, so its element `(1, 0)` is `2 = A(0, 1)`, whereas the
sub-block of `A` at `(0, 0)` has `A(0 + 1, 0 + 0) = 3` there. -/
theorem slice_contiguous_copy :
    (Matrix.ofArray [1, 2, 3, 4] rfl : Matrix ℚ 2 2).slice 2 1 0 0 =
      some (Matrix.ofArray [1, 2] rfl) ∧
    (Matrix.ofArray [1, 2] rfl : Matrix ℚ 2 1).get 1 0 = 2 ∧
    (Matrix.ofArray [1, 2, 3, 4] rfl : Matrix ℚ 2 2).get (0 + 1) (0 + 0) = 3 ∧
    ¬ ∀ S : Matrix ℚ 2 1,
      (Matrix.ofArray [1, 2, 3, 4] rfl : Matrix ℚ 2 2).slice 2 1 0 0 = some S →
      ∀ i j, i < 2 → j < 1 →
        S.get i j = (Matrix.ofArray [1, 2, 3, 4] rfl : Matrix ℚ 2 2).get (0 + i) (0 + j) := by
  have h1 : (Matrix.ofArray [1, 2, 3, 4] rfl : Matrix ℚ 2 2).slice 2 1 0 0 =
      some (Matrix.ofArray [1, 2] rfl) := by decide
  have h2 : (Matrix.ofArray [1, 2] rfl : Matrix ℚ 2 1).get 1 0 = 2 := rfl
  have h3 : (Matrix.ofArray [1, 2, 3, 4] rfl : Matrix ℚ 2 2).get (0 + 1) (0 + 0) = 3 := rfl
  refine ⟨h1, h2, h3, ?_⟩
  intro h
  have h4 := h _ h1 1 0 (by decide) (by decide)
  rw [h2, h3] at h4
  norm_num at h4

/-- C3 (the code departs from the claim): on `A = [[1,2],[3,4]]`, the copy `A2` of
`A` after `A2.set(A.slice<2,1>(0, 0), 0, 0)` is `[[1,2],[2,4]]`, which differs
from `A` in the element `(1, 0)`. -/
theorem slice_set_round_trip_broken :
    (Matrix.ofArray [1, 2, 3, 4] rfl : Matrix ℚ 2 2).slice 2 1 0 0 =
      some (Matrix.ofArray [1, 2] rfl) ∧
    (Matrix.ofArray [1, 2, 3, 4] rfl : Matrix ℚ 2 2).set
      (Matrix.ofArray [1, 2] rfl : Matrix ℚ 2 1) 0 0 = Matrix.ofArray [1, 2, 2, 4] rfl ∧
    (Matrix.ofArray [1, 2, 2, 4] rfl : Matrix ℚ 2 2) ≠ Matrix.ofArray [1, 2, 3, 4] rfl := by
  refine ⟨by decide, by decide, by decide⟩

/-- C4: identity law. For every `M×N` matrix `A`, `Identity<M,M>() * A` is `A` and
`A * Identity<N,N>()` is `A`, element for element, hence also under `operator==`. -/
theorem identity_law (A : Matrix α M N) :
    (Matrix.Identity : Matrix α M M).mul A = A ∧
    A.mul (Matrix.Identity : Matrix α N N) = A ∧
    ((Matrix.Identity : Matrix α M M).mul A).eq A = true ∧
    (A.mul (Matrix.Identity : Matrix α N N)).eq A = true := by
  refine ⟨Identity_mul A, mul_Identity A, ?_, ?_⟩
  · rw [Identity_mul A]; exact eq_self A
  · rw [mul_Identity A]; exact eq_self A

/-- C5: associativity of the product. For `A` of shape `M×N`, `B` of shape `N×P`
and `C` of shape `P×R`, `(A*B)*C` and `A*(B*C)` are the same matrix over exact
arithmetic, hence equal under `operator==`. -/
theorem mul_associative (A : Matrix α M N) (B : Matrix α N P) (C : Matrix α P R) :
    (A.mul B).mul C = A.mul (B.mul C) ∧
    ((A.mul B).mul C).eq (A.mul (B.mul C)) = true := by
  refine ⟨mul_assoc_get A B C, ?_⟩
  rw [mul_assoc_get A B C]
  exact eq_self _

/-- C6: transpose involution. For every `M×N` matrix `A`,
`A.transpose().transpose()` is exactly `A`. -/
theorem transpose_involution (A : Matrix α M N) : A.transpose.transpose = A :=
  transpose_transpose A

/-- C7: approximate equality. `A == B` returns true if and only if
`|A(i,j) − B(i,j)| ≤ 1e-4` for every `i < M` and `j < N`; so a difference of
exactly the tolerance compares equal, `[[1.00000]]` and `[[1.00009]]` compare
equal, and `[[1.00000]]` and `[[1.00011]]` compare unequal. -/
theorem eq_spec (A B : Matrix α M N) :
    (A.eq B = true ↔ ∀ i j, i < M → j < N → |A.get i j - B.get i j| ≤ 1e-4) ∧
    (Matrix.ofArray [1] rfl : Matrix α 1 1).eq (Matrix.ofArray [1.0001] rfl) = true ∧
    (Matrix.ofArray [1] rfl : Matrix α 1 1).eq (Matrix.ofArray [1.00009] rfl) = true ∧
    (Matrix.ofArray [1] rfl : Matrix α 1 1).eq (Matrix.ofArray [1.00011] rfl) = false := by
  have he : (1e-4 : α) = 1 / 10000 := by norm_num
  refine ⟨?_, ?_, ?_, ?_⟩
  · rw [he]; exact eq_eq_true_iff A B
  · rw [eq_eq_true_iff]
    intro i j hi hj
    have hi0 : i = 0 := by omega
    have hj0 : j = 0 := by omega
    subst hi0; subst hj0
    simp only [Matrix.get, Matrix.ofArray, List.getD_cons_zero, Nat.zero_mul, Nat.add_zero]
    rw [abs_le]
    constructor <;> norm_num
  · rw [eq_eq_true_iff]
    intro i j hi hj
    have hi0 : i = 0 := by omega
    have hj0 : j = 0 := by omega
    subst hi0; subst hj0
    simp only [Matrix.get, Matrix.ofArray, List.getD_cons_zero, Nat.zero_mul, Nat.add_zero]
    rw [abs_le]
    constructor <;> norm_num
  · rw [← Bool.not_eq_true, eq_eq_true_iff]
    intro h
    have h1 := h 0 0 (by decide) (by decide)
    simp only [Matrix.get, Matrix.ofArray, List.getD_cons_zero, Nat.zero_mul, Nat.add_zero] at h1
    rw [abs_le] at h1
    norm_num at h1

/-- C8: set sub-block. For an `M×N` matrix `A`, a `P×Q` matrix `B` and an offset
with `x0 + P ≤ M` and `y0 + Q ≤ N`, after `A.set(B, x0, y0)` the element
`(x0 + i, y0 + j)` is `B(i,j)` for `i < P`, `j < Q`, and every element of `A`
outside the block rows `x0..x0+P-1` × columns `y0..y0+Q-1` keeps its value. -/
theorem set_spec (A : Matrix α M N) (B : Matrix α P Q) (x0 y0 : Nat)
    (hx : x0 + P ≤ M) (hy : y0 + Q ≤ N) :
    (∀ i j, i < P → j < Q → (A.set B x0 y0).get (x0 + i) (y0 + j) = B.get i j) ∧
    (∀ a b, a < M → b < N → ¬ (x0 ≤ a ∧ a < x0 + P ∧ y0 ≤ b ∧ b < y0 + Q) →
      (A.set B x0 y0).get a b = A.get a b) := by
  constructor
  · intro i j hi hj
    rw [Nat.add_comm x0 i, Nat.add_comm y0 j]
    exact get_set_inside A B hx hy hi hj
  · intro a b _ hb hout
    exact get_set_outside A B hx hy hb hout

/-- Witness of `set_spec`: writing the `1×1` block `[[9]]` at offset `(0, 1)` of
`[[1,2],[3,4]]`. -/
theorem set_spec_witness :
    (0 + 1 ≤ 2 ∧ 1 + 1 ≤ 2) ∧
    ((∀ i j, i < 1 → j < 1 →
        ((Matrix.ofArray [1, 2, 3, 4] rfl : Matrix ℚ 2 2).set
          (Matrix.ofArray [9] rfl : Matrix ℚ 1 1) 0 1).get (0 + i) (1 + j) =
        (Matrix.ofArray [9] rfl : Matrix ℚ 1 1).get i j) ∧
     (∀ a b, a < 2 → b < 2 → ¬ (0 ≤ a ∧ a < 0 + 1 ∧ 1 ≤ b ∧ b < 1 + 1) →
        ((Matrix.ofArray [1, 2, 3, 4] rfl : Matrix ℚ 2 2).set
          (Matrix.ofArray [9] rfl : Matrix ℚ 1 1) 0 1).get a b =
        (Matrix.ofArray [1, 2, 3, 4] rfl : Matrix ℚ 2 2).get a b)) :=
  ⟨⟨by decide, by decide⟩,
    set_spec (Matrix.ofArray [1, 2, 3, 4] rfl) (Matrix.ofArray [9] rfl) 0 1
      (by decide) (by decide)⟩

/-- C9: swap involution. For row indices `a, b < M`, `swapRows(a, b)` applied
twice gives back the matrix and `swapRows(a, a)` changes nothing; the same holds
for `swapCols` with column indices `c, d < N`. -/
theorem swap_involution (A : Matrix α M N) (a b c d : Nat) :
    (a < M → b < M → (A.swapRows a b).swapRows a b = A ∧ A.swapRows a a = A) ∧
    (c < N → d < N → (A.swapCols c d).swapCols c d = A ∧ A.swapCols c c = A) := by
  refine ⟨fun ha hb => ⟨?_, ?_⟩, fun hc hd => ⟨?_, ?_⟩⟩
  · apply Matrix.ext_get
    intro i j _ hj
    rw [get_swapRows _ ha hb i j hj, get_swapRows A ha hb b j hj, get_swapRows A ha hb a j hj,
      get_swapRows A ha hb i j hj]
    by_cases h1 : i = a
    · subst h1
      by_cases h2 : b = i
      · subst h2; simp
      · simp [h2]
    · by_cases h2 : i = b
      · subst h2; simp [h1]
      · simp [h1, h2]
  · unfold Matrix.swapRows
    rw [if_pos rfl]
  · apply Matrix.ext_get
    intro i j _ hj
    rw [get_swapCols _ hc hd i j hj, get_swapCols A hc hd i d hd, get_swapCols A hc hd i c hc,
      get_swapCols A hc hd i j hj]
    by_cases h1 : j = c
    · subst h1
      by_cases h2 : d = j
      · subst h2; simp
      · simp [h2]
    · by_cases h2 : j = d
      · subst h2; simp [h1]
      · simp [h1, h2]
  · unfold Matrix.swapCols
    rw [if_pos rfl]

/-- Witness of `swap_involution`: rows `0, 1` and columns `0, 2` of
`[[1,2,3],[4,5,6]]`. -/
theorem swap_involution_witness :
    (0 < 2 ∧ 1 < 2 ∧ 0 < 3 ∧ 2 < 3) ∧
    (((Matrix.ofArray [1, 2, 3, 4, 5, 6] rfl : Matrix ℚ 2 3).swapRows 0 1).swapRows 0 1 =
        Matrix.ofArray [1, 2, 3, 4, 5, 6] rfl ∧
      (Matrix.ofArray [1, 2, 3, 4, 5, 6] rfl : Matrix ℚ 2 3).swapRows 0 0 =
        Matrix.ofArray [1, 2, 3, 4, 5, 6] rfl) ∧
    (((Matrix.ofArray [1, 2, 3, 4, 5, 6] rfl : Matrix ℚ 2 3).swapCols 0 2).swapCols 0 2 =
        Matrix.ofArray [1, 2, 3, 4, 5, 6] rfl ∧
      (Matrix.ofArray [1, 2, 3, 4, 5, 6] rfl : Matrix ℚ 2 3).swapCols 0 0 =
        Matrix.ofArray [1, 2, 3, 4, 5, 6] rfl) :=
  ⟨⟨by decide, by decide, by decide, by decide⟩,
    (swap_involution (Matrix.ofArray [1, 2, 3, 4, 5, 6] rfl) 0 1 0 2).1 (by decide) (by decide),
    (swap_involution (Matrix.ofArray [1, 2, 3, 4, 5, 6] rfl) 0 1 0 2).2 (by decide) (by decide)⟩

/-- C10 (the code departs from the claim): `limited` keeps its working value in a
`float`.  For `Type = double`, on `[[0.1]]` with min `[[0]]` and max `[[1]]` the
element lies in the interval, yet the result is `[[13421773 / 2 ^ 27]]`, the
`float` nearest to `0.1`, and not `[[0.1]]`; with max `[[0.1]]` the result is
again `[[13421773 / 2 ^ 27]]`, which is above the maximum bound. -/
theorem limited_narrows_to_float :
    (Matrix.ofArray [1 / 10] rfl : Matrix ℚ 1 1).limited roundToFloat
        (Matrix.ofArray [0] rfl) (Matrix.ofArray [1] rfl) =
      Matrix.ofArray [13421773 / 134217728] rfl ∧
    ((0 : ℚ) ≤ 1 / 10 ∧ (1 / 10 : ℚ) ≤ 1 ∧ (13421773 / 134217728 : ℚ) ≠ 1 / 10) ∧
    (Matrix.ofArray [1 / 10] rfl : Matrix ℚ 1 1).limited roundToFloat
        (Matrix.ofArray [0] rfl) (Matrix.ofArray [1 / 10] rfl) =
      Matrix.ofArray [13421773 / 134217728] rfl ∧
    ((0 : ℚ) ≤ 1 / 10 ∧ (13421773 / 134217728 : ℚ) > 1 / 10) := by
  refine ⟨?_, by norm_num, ?_, by norm_num⟩
  · apply Matrix.ext_get
    intro a b ha hb
    have ha0 : a = 0 := by omega
    have hb0 : b = 0 := by omega
    subst ha0; subst hb0
    rw [get_limited _ _ _ _ (by decide) (by decide)]
    simp only [Matrix.get, Matrix.ofArray, List.getD_cons_zero, Nat.zero_mul, Nat.add_zero,
      roundToFloat_one_tenth]
    norm_num
  · apply Matrix.ext_get
    intro a b ha hb
    have ha0 : a = 0 := by omega
    have hb0 : b = 0 := by omega
    subst ha0; subst hb0
    rw [get_limited _ _ _ _ (by decide) (by decide)]
    simp only [Matrix.get, Matrix.ofArray, List.getD_cons_zero, Nat.zero_mul, Nat.add_zero,
      roundToFloat_one_tenth]
    norm_num

/-- C11 (the code departs from the claim): `limited` keeps its working value in a
`float`.  For `Type = double`, on `[[0.5]]` with the inverted bounds min `[[1]]`
and max `[[0.1]]` the result is `[[13421773 / 2 ^ 27]]`, the `float` nearest to
`0.1`, and not the maximum bound `[[0.1]]`. -/
theorem limited_inverted_bounds_narrows_to_float :
    (Matrix.ofArray [1 / 2] rfl : Matrix ℚ 1 1).limited roundToFloat
        (Matrix.ofArray [1] rfl) (Matrix.ofArray [1 / 10] rfl) =
      Matrix.ofArray [13421773 / 134217728] rfl ∧
    ((1 : ℚ) > 1 / 10 ∧ (13421773 / 134217728 : ℚ) ≠ 1 / 10) := by
  refine ⟨?_, by norm_num⟩
  apply Matrix.ext_get
  intro a b ha hb
  have ha0 : a = 0 := by omega
  have hb0 : b = 0 := by omega
  subst ha0; subst hb0
  rw [get_limited _ _ _ _ (by decide) (by decide)]
  simp only [Matrix.get, Matrix.ofArray, List.getD_cons_zero, Nat.zero_mul, Nat.add_zero,
    roundToFloat_one_tenth, roundToFloat_one_half, roundToFloat_one]
  norm_num

/-- C12: extremes. For an `M×N` matrix `A` with `M ≥ 1` and `N ≥ 1`, `A.max()` is
the value of some element of `A` and is at least every element, and `A.min()` is
the value of some element of `A` and is at most every element; for
`[[1,2],[3,4]]` the maximum is `4` and the minimum is `1`. -/
theorem max_min_spec (A : Matrix α M N) (hM : 1 ≤ M) (hN : 1 ≤ N) :
    (∃ i j, i < M ∧ j < N ∧ A.max = A.get i j) ∧
    (∀ i j, i < M → j < N → A.get i j ≤ A.max) ∧
    (∃ i j, i < M ∧ j < N ∧ A.min = A.get i j) ∧
    (∀ i j, i < M → j < N → A.min ≤ A.get i j) ∧
    (Matrix.ofArray [1, 2, 3, 4] rfl : Matrix α 2 2).max = 4 ∧
    (Matrix.ofArray [1, 2, 3, 4] rfl : Matrix α 2 2).min = 1 := by
  refine ⟨max_mem A hM hN, fun i j hi hj => le_max A hi hj, min_mem A hM hN,
    fun i j hi hj => min_le A hi hj, ?_, ?_⟩
  · simp [Matrix.max, forLoop, Matrix.get, Matrix.ofArray]
    norm_num
  · simp [Matrix.min, forLoop, Matrix.get, Matrix.ofArray]

/-- Witness of `max_min_spec`: the matrix `[[1,2],[3,4]]` over the rationals. -/
theorem max_min_spec_witness :
    (1 ≤ 2 ∧ 1 ≤ 2) ∧
    ((∃ i j, i < 2 ∧ j < 2 ∧ (Matrix.ofArray [1, 2, 3, 4] rfl : Matrix ℚ 2 2).max =
        (Matrix.ofArray [1, 2, 3, 4] rfl : Matrix ℚ 2 2).get i j) ∧
      (∀ i j, i < 2 → j < 2 → (Matrix.ofArray [1, 2, 3, 4] rfl : Matrix ℚ 2 2).get i j ≤
        (Matrix.ofArray [1, 2, 3, 4] rfl : Matrix ℚ 2 2).max) ∧
      (∃ i j, i < 2 ∧ j < 2 ∧ (Matrix.ofArray [1, 2, 3, 4] rfl : Matrix ℚ 2 2).min =
        (Matrix.ofArray [1, 2, 3, 4] rfl : Matrix ℚ 2 2).get i j) ∧
      (∀ i j, i < 2 → j < 2 → (Matrix.ofArray [1, 2, 3, 4] rfl : Matrix ℚ 2 2).min ≤
        (Matrix.ofArray [1, 2, 3, 4] rfl : Matrix ℚ 2 2).get i j) ∧
      (Matrix.ofArray [1, 2, 3, 4] rfl : Matrix ℚ 2 2).max = 4 ∧
      (Matrix.ofArray [1, 2, 3, 4] rfl : Matrix ℚ 2 2).min = 1) :=
  ⟨⟨by decide, by decide⟩,
    max_min_spec (Matrix.ofArray [1, 2, 3, 4] rfl) (by decide) (by decide)⟩

/-- C13: compound assignment equivalence. The state of `A` after `A += B`,
`A -= B`, `A *= C` (with `C` of shape `N×N`), `A *= s`, `A /= s`, `A += s`,
`A -= s` is the value of `A + B`, `A - B`, `A * C`, `A * s`, `A / s`, `A + s`,
`A - s` on the old `A`. -/
theorem compound_assignment (A B : Matrix α M N) (C : Matrix α N N) (s : α) :
    A.addAssign B = A.add B ∧ A.subAssign B = A.sub B ∧ A.mulAssign C = A.mul C ∧
    A.mulAssignScalar s = A.mulScalar s ∧ A.divAssignScalar s = A.divScalar s ∧
    A.addAssignScalar s = A.addScalar s ∧ A.subAssignScalar s = A.subScalar s :=
  ⟨rfl, rfl, rfl, mulAssignScalar_eq A s, rfl, rfl, rfl⟩

/-- C14: identity generator. For every shape `M×N`, square or not, `Identity()`,
and `setIdentity()` on any prior contents, yield a matrix whose element `(i, j)`
is `1` when `i = j` and `0` when `i ≠ j`; the cells holding `1` are exactly the
`min(M,N)` diagonal positions. -/
theorem identity_generator (A : Matrix α M N) (i j : Nat) (hi : i < M) (hj : j < N) :
    (i = j → (Matrix.Identity : Matrix α M N).get i j = 1 ∧ A.setIdentity.get i j = 1) ∧
    (i ≠ j → (Matrix.Identity : Matrix α M N).get i j = 0 ∧ A.setIdentity.get i j = 0) ∧
    ((Finset.range M ×ˢ Finset.range N).filter
      (fun p => (Matrix.Identity : Matrix α M N).get p.1 p.2 = 1)).card = min M N := by
  refine ⟨fun h => ?_, fun h => ?_, card_Identity_ones⟩
  · rw [get_Identity hi hj, get_setIdentity A hi hj, if_pos h]
    exact ⟨rfl, rfl⟩
  · rw [get_Identity hi hj, get_setIdentity A hi hj, if_neg h]
    exact ⟨rfl, rfl⟩

/-- Witness of `identity_generator`: the element `(1, 2)` of the `2×3` identity,
with `setIdentity()` applied to `[[1,2,3],[4,5,6]]`. -/
theorem identity_generator_witness :
    (1 < 2 ∧ 2 < 3) ∧
    ((1 = 2 → (Matrix.Identity : Matrix ℚ 2 3).get 1 2 = 1 ∧
        (Matrix.ofArray [1, 2, 3, 4, 5, 6] rfl : Matrix ℚ 2 3).setIdentity.get 1 2 = 1) ∧
      (1 ≠ 2 → (Matrix.Identity : Matrix ℚ 2 3).get 1 2 = 0 ∧
        (Matrix.ofArray [1, 2, 3, 4, 5, 6] rfl : Matrix ℚ 2 3).setIdentity.get 1 2 = 0) ∧
      ((Finset.range 2 ×ˢ Finset.range 3).filter
        (fun p => (Matrix.Identity : Matrix ℚ 2 3).get p.1 p.2 = 1)).card = min 2 3) :=
  ⟨⟨by decide, by decide⟩,
    identity_generator (Matrix.ofArray [1, 2, 3, 4, 5, 6] rfl) 1 2 (by decide) (by decide)⟩

/-- C15: row and column get and set are inverse. For a row index `i < M` and a
`1×N` row `r`, `getRow(i)` after `setRow(i, r)` returns `r`, and
`setRow(i, getRow(i))` leaves the matrix unchanged; likewise for a column index
`j < N` and an `M×1` column `c` with `getCol` and `setCol`. -/
theorem row_col_get_set (A : Matrix α M N) (i j : Nat) (r : Matrix α 1 N)
    (c : Matrix α M 1) :
    (i < M → (A.setRow i r).getRow i = r ∧ A.setRow i (A.getRow i) = A) ∧
    (j < N → (A.setCol j c).getCol j = c ∧ A.setCol j (A.getCol j) = A) := by
  refine ⟨fun hi => ⟨?_, ?_⟩, fun hj => ⟨?_, ?_⟩⟩
  · apply Matrix.ext_get
    intro a b ha hb
    have ha0 : a = 0 := by omega
    subst ha0
    rw [get_getRow _ i hb, get_setRow A hi r i b hb, if_pos rfl]
  · apply Matrix.ext_get
    intro a b _ hb
    rw [get_setRow A hi _ a b hb]
    by_cases h : a = i
    · subst h
      rw [if_pos rfl, get_getRow A a hb]
    · rw [if_neg h]
  · apply Matrix.ext_get
    intro a b ha hb
    have hb0 : b = 0 := by omega
    subst hb0
    rw [get_getCol _ j ha, get_setCol A hj c a j ha hj, if_pos rfl]
  · apply Matrix.ext_get
    intro a b ha hb
    rw [get_setCol A hj _ a b ha hb]
    by_cases h : b = j
    · subst h
      rw [if_pos rfl, get_getCol A b ha]
    · rw [if_neg h]

/-- Witness of `row_col_get_set`: row `1` and column `2` of `[[1,2,3],[4,5,6]]`,
with the row `[[7,8,9]]` and the column `[[7],[8]]`. -/
theorem row_col_get_set_witness :
    (1 < 2 ∧ 2 < 3) ∧
    ((((Matrix.ofArray [1, 2, 3, 4, 5, 6] rfl : Matrix ℚ 2 3).setRow 1
          (Matrix.ofArray [7, 8, 9] rfl)).getRow 1 = Matrix.ofArray [7, 8, 9] rfl ∧
        (Matrix.ofArray [1, 2, 3, 4, 5, 6] rfl : Matrix ℚ 2 3).setRow 1
          ((Matrix.ofArray [1, 2, 3, 4, 5, 6] rfl : Matrix ℚ 2 3).getRow 1) =
          Matrix.ofArray [1, 2, 3, 4, 5, 6] rfl) ∧
      (((Matrix.ofArray [1, 2, 3, 4, 5, 6] rfl : Matrix ℚ 2 3).setCol 2
          (Matrix.ofArray [7, 8] rfl)).getCol 2 = Matrix.ofArray [7, 8] rfl ∧
        (Matrix.ofArray [1, 2, 3, 4, 5, 6] rfl : Matrix ℚ 2 3).setCol 2
          ((Matrix.ofArray [1, 2, 3, 4, 5, 6] rfl : Matrix ℚ 2 3).getCol 2) =
          Matrix.ofArray [1, 2, 3, 4, 5, 6] rfl)) :=
  ⟨⟨by decide, by decide⟩,
    (row_col_get_set (Matrix.ofArray [1, 2, 3, 4, 5, 6] rfl) 1 2 (Matrix.ofArray [7, 8, 9] rfl)
      (Matrix.ofArray [7, 8] rfl)).1 (by decide),
    (row_col_get_set (Matrix.ofArray [1, 2, 3, 4, 5, 6] rfl) 1 2 (Matrix.ofArray [7, 8, 9] rfl)
      (Matrix.ofArray [7, 8] rfl)).2 (by decide)⟩

/-- C16: transpose definition. For an `M×N` matrix `A`, `A.transpose()` and its
aliases `transposed()` and `T()` have `A(i,j)` as element `(j, i)` for every
`i < M` and `j < N`; and the transpose of `[[1,2],[3,4]]` is `[[1,3],[2,4]]`. -/
theorem transpose_spec (A : Matrix α M N) (i j : Nat) (hi : i < M) (hj : j < N) :
    A.transpose.get j i = A.get i j ∧ A.transposed.get j i = A.get i j ∧
    A.T.get j i = A.get i j ∧
    (Matrix.ofArray [1, 2, 3, 4] rfl : Matrix α 2 2).transpose =
      Matrix.ofArray [1, 3, 2, 4] rfl := by
  refine ⟨get_transpose A hi hj, get_transpose A hi hj, get_transpose A hi hj, ?_⟩
  apply Matrix.ext_get
  intro a b ha hb
  rw [get_transpose _ hb ha]
  have ha' : a = 0 ∨ a = 1 := by omega
  have hb' : b = 0 ∨ b = 1 := by omega
  rcases ha' with rfl | rfl <;> rcases hb' with rfl | rfl <;>
    simp [Matrix.get, Matrix.ofArray]

/-- Witness of `transpose_spec`: the element `(0, 1)` of `[[1,2],[3,4]]`. -/
theorem transpose_spec_witness :
    (0 < 2 ∧ 1 < 2) ∧
    ((Matrix.ofArray [1, 2, 3, 4] rfl : Matrix ℚ 2 2).transpose.get 1 0 =
        (Matrix.ofArray [1, 2, 3, 4] rfl : Matrix ℚ 2 2).get 0 1 ∧
      (Matrix.ofArray [1, 2, 3, 4] rfl : Matrix ℚ 2 2).transposed.get 1 0 =
        (Matrix.ofArray [1, 2, 3, 4] rfl : Matrix ℚ 2 2).get 0 1 ∧
      (Matrix.ofArray [1, 2, 3, 4] rfl : Matrix ℚ 2 2).T.get 1 0 =
        (Matrix.ofArray [1, 2, 3, 4] rfl : Matrix ℚ 2 2).get 0 1 ∧
      (Matrix.ofArray [1, 2, 3, 4] rfl : Matrix ℚ 2 2).transpose =
        Matrix.ofArray [1, 3, 2, 4] rfl) :=
  ⟨⟨by decide, by decide⟩,
    transpose_spec (Matrix.ofArray [1, 2, 3, 4] rfl) 0 1 (by decide) (by decide)⟩

/-- C17: scalar broadcast. At every position `(i, j)` of an `M×N` matrix `A`,
`(A * s)(i,j) = A(i,j)·s`, `(s * A)(i,j) = A(i,j)·s`, `(A + s)(i,j) = A(i,j) + s`,
`(A - s)(i,j) = A(i,j) − s` and `(A / s)(i,j) = A(i,j)·(1/s)`, which is
`A(i,j)/s` for a nonzero `s`. -/
theorem scalar_broadcast (A : Matrix α M N) (s : α) (i j : Nat) (hi : i < M)
    (hj : j < N) :
    (A.mulScalar s).get i j = A.get i j * s ∧
    (scalarMul s A).get i j = A.get i j * s ∧
    (A.addScalar s).get i j = A.get i j + s ∧
    (A.subScalar s).get i j = A.get i j - s ∧
    (A.divScalar s).get i j = A.get i j * (1 / s) ∧
    (s ≠ 0 → (A.divScalar s).get i j = A.get i j / s) := by
  refine ⟨get_mulScalar A s hi hj, get_mulScalar A s hi hj, get_addScalar A s hi hj, ?_, ?_, ?_⟩
  · unfold Matrix.subScalar
    rw [get_addScalar A _ hi hj]
    ring
  · unfold Matrix.divScalar
    exact get_mulScalar A _ hi hj
  · intro _
    unfold Matrix.divScalar
    rw [get_mulScalar A _ hi hj, mul_one_div]

/-- Witness of `scalar_broadcast`: the element `(1, 0)` of `[[1,2],[3,4]]` with
the scalar `2`. -/
theorem scalar_broadcast_witness :
    (1 < 2 ∧ 0 < 2) ∧
    (((Matrix.ofArray [1, 2, 3, 4] rfl : Matrix ℚ 2 2).mulScalar 2).get 1 0 =
        (Matrix.ofArray [1, 2, 3, 4] rfl : Matrix ℚ 2 2).get 1 0 * 2 ∧
      (scalarMul 2 (Matrix.ofArray [1, 2, 3, 4] rfl : Matrix ℚ 2 2)).get 1 0 =
        (Matrix.ofArray [1, 2, 3, 4] rfl : Matrix ℚ 2 2).get 1 0 * 2 ∧
      ((Matrix.ofArray [1, 2, 3, 4] rfl : Matrix ℚ 2 2).addScalar 2).get 1 0 =
        (Matrix.ofArray [1, 2, 3, 4] rfl : Matrix ℚ 2 2).get 1 0 + 2 ∧
      ((Matrix.ofArray [1, 2, 3, 4] rfl : Matrix ℚ 2 2).subScalar 2).get 1 0 =
        (Matrix.ofArray [1, 2, 3, 4] rfl : Matrix ℚ 2 2).get 1 0 - 2 ∧
      ((Matrix.ofArray [1, 2, 3, 4] rfl : Matrix ℚ 2 2).divScalar 2).get 1 0 =
        (Matrix.ofArray [1, 2, 3, 4] rfl : Matrix ℚ 2 2).get 1 0 * (1 / 2) ∧
      ((2 : ℚ) ≠ 0 → ((Matrix.ofArray [1, 2, 3, 4] rfl : Matrix ℚ 2 2).divScalar 2).get 1 0 =
        (Matrix.ofArray [1, 2, 3, 4] rfl : Matrix ℚ 2 2).get 1 0 / 2)) :=
  ⟨⟨by decide, by decide⟩,
    scalar_broadcast (Matrix.ofArray [1, 2, 3, 4] rfl) 2 1 0 (by decide) (by decide)⟩

/-- C18: slice reads stay inside the source storage. For a block shape `P×Q`
with `P ≥ 1` and `Q ≥ 1` and an offset with `x0 + P ≤ M` and `y0 + Q ≤ N`, every
flat position `x0·N + y0 + t` with `t < P·Q` read by the contiguous copy in
`slice<P,Q>(x0, y0)` is below `M·N`, so `slice` returns a matrix and never takes
its out-of-bounds branch. -/
theorem slice_reads_in_bounds (A : Matrix α M N) (P Q x0 y0 : Nat) (hP : 1 ≤ P)
    (_hQ : 1 ≤ Q) (hx : x0 + P ≤ M) (hy : y0 + Q ≤ N) :
    (∀ t, t < P * Q → x0 * N + y0 + t < M * N) ∧
    (∃ S : Matrix α P Q, A.slice P Q x0 y0 = some S) ∧ A.slice P Q x0 y0 ≠ none := by
  have hb : ∀ t, t < P * Q → x0 * N + y0 + t < M * N :=
    fun t ht => slice_index_lt hP hx hy ht
  have hs : ∃ S : Matrix α P Q, A.slice P Q x0 y0 = some S :=
    ofPtr_eq_some_of_lt A._data (x0 * N + y0) (by rw [A.size_eq]; exact hb)
  refine ⟨hb, hs, ?_⟩
  obtain ⟨S, hS⟩ := hs
  rw [hS]
  exact Option.noConfusion

/-- Witness of `slice_reads_in_bounds`: the block `2×2` at offset `(0, 1)` of
`[[1,2,3],[4,5,6]]`. -/
theorem slice_reads_in_bounds_witness :
    (1 ≤ 2 ∧ 1 ≤ 2 ∧ 0 + 2 ≤ 2 ∧ 1 + 2 ≤ 3) ∧
    ((∀ t, t < 2 * 2 → 0 * 3 + 1 + t < 2 * 3) ∧
      (∃ S : Matrix ℚ 2 2,
        (Matrix.ofArray [1, 2, 3, 4, 5, 6] rfl : Matrix ℚ 2 3).slice 2 2 0 1 = some S) ∧
      (Matrix.ofArray [1, 2, 3, 4, 5, 6] rfl : Matrix ℚ 2 3).slice 2 2 0 1 ≠ none) :=
  ⟨⟨by decide, by decide, by decide, by decide⟩,
    slice_reads_in_bounds (Matrix.ofArray [1, 2, 3, 4, 5, 6] rfl) 2 2 0 1 (by decide)
      (by decide) (by decide) (by decide)⟩

/-- C19: slice is exact for full-width or single-row blocks. For an offset with
`x0 + P ≤ M` and `y0 + Q ≤ N`, if `Q = N` (which forces `y0 = 0`) or `P = 1`, then
`A.slice<P,Q>(x0, y0)` returns a matrix whose element `(i, j)` is
`A(x0 + i, y0 + j)` for every `i < P` and `j < Q`. -/
theorem slice_exact_full_width_or_single_row (A : Matrix α M N) (P Q x0 y0 : Nat)
    (hx : x0 + P ≤ M) (hy : y0 + Q ≤ N) (h : Q = N ∨ P = 1) :
    (Q = N → y0 = 0) ∧
    ∃ S : Matrix α P Q, A.slice P Q x0 y0 = some S ∧
      ∀ i j, i < P → j < Q → S.get i j = A.get (x0 + i) (y0 + j) := by
  refine ⟨fun hq => by omega, ?_⟩
  have hs : ∃ S : Matrix α P Q, A.slice P Q x0 y0 = some S := by
    apply ofPtr_eq_some_of_lt
    intro t ht
    rw [A.size_eq]
    have hP : 1 ≤ P := by
      rcases Nat.eq_zero_or_pos P with h0 | h0
      · subst h0; simp at ht
      · exact h0
    exact slice_index_lt hP hx hy ht
  obtain ⟨S, hS⟩ := hs
  refine ⟨S, hS, ?_⟩
  intro i j hi hj
  rw [get_ofPtr A._data (x0 * N + y0) S hS hi hj]
  unfold Matrix.get
  rcases h with h | h
  · subst h
    have hy0 : y0 = 0 := by omega
    subst hy0
    congr 1
    ring
  · subst h
    have hi0 : i = 0 := by omega
    subst hi0
    congr 1
    ring

/-- Witness of `slice_exact_full_width_or_single_row`: the single-row block
`1×2` at offset `(1, 1)` of `[[1,2,3],[4,5,6]]`. -/
theorem slice_exact_full_width_or_single_row_witness :
    (1 + 1 ≤ 2 ∧ 1 + 2 ≤ 3 ∧ (2 = 3 ∨ 1 = 1)) ∧
    ((2 = 3 → 1 = 0) ∧
      ∃ S : Matrix ℚ 1 2,
        (Matrix.ofArray [1, 2, 3, 4, 5, 6] rfl : Matrix ℚ 2 3).slice 1 2 1 1 = some S ∧
        ∀ i j, i < 1 → j < 2 →
          S.get i j = (Matrix.ofArray [1, 2, 3, 4, 5, 6] rfl : Matrix ℚ 2 3).get (1 + i) (1 + j)) :=
  ⟨⟨by decide, by decide, Or.inr rfl⟩,
    slice_exact_full_width_or_single_row (Matrix.ofArray [1, 2, 3, 4, 5, 6] rfl) 1 2 1 1
      (by decide) (by decide) (Or.inr rfl)⟩

/-- C20: `operator==` is reflexive and symmetric but not transitive: the `1×1`
matrices `[[0]]`, `[[0.0001]]`, `[[0.0002]]` satisfy `A == B` and `B == C` while
`A == C` is false. -/
theorem eq_reflexive_symmetric_not_transitive (A B : Matrix α M N) :
    A.eq A = true ∧ (A.eq B = true ↔ B.eq A = true) ∧
    ((Matrix.ofArray [0] rfl : Matrix α 1 1).eq (Matrix.ofArray [0.0001] rfl) = true ∧
      (Matrix.ofArray [0.0001] rfl : Matrix α 1 1).eq (Matrix.ofArray [0.0002] rfl) = true ∧
      (Matrix.ofArray [0] rfl : Matrix α 1 1).eq (Matrix.ofArray [0.0002] rfl) = false) := by
  refine ⟨eq_self A, ?_, ?_, ?_, ?_⟩
  · rw [eq_eq_true_iff, eq_eq_true_iff]
    constructor
    · intro h i j hi hj
      rw [abs_sub_comm]; exact h i j hi hj
    · intro h i j hi hj
      rw [abs_sub_comm]; exact h i j hi hj
  · rw [eq_eq_true_iff]
    intro i j hi hj
    have hi0 : i = 0 := by omega
    have hj0 : j = 0 := by omega
    subst hi0; subst hj0
    simp only [Matrix.get, Matrix.ofArray, List.getD_cons_zero, Nat.zero_mul, Nat.add_zero]
    rw [abs_le]
    constructor <;> norm_num
  · rw [eq_eq_true_iff]
    intro i j hi hj
    have hi0 : i = 0 := by omega
    have hj0 : j = 0 := by omega
    subst hi0; subst hj0
    simp only [Matrix.get, Matrix.ofArray, List.getD_cons_zero, Nat.zero_mul, Nat.add_zero]
    rw [abs_le]
    constructor <;> norm_num
  · rw [← Bool.not_eq_true, eq_eq_true_iff]
    intro h
    have h1 := h 0 0 (by decide) (by decide)
    simp only [Matrix.get, Matrix.ofArray, List.getD_cons_zero, Nat.zero_mul, Nat.add_zero] at h1
    rw [abs_le] at h1
    norm_num at h1

end matrix
